import Mathlib

/-!
Verification of the brainfuck interpreter (remind-me-later/brainfuck).

The development shallowly embeds the parsing-and-optimization pipeline of
`src/parser/mod.rs` / `src/ir.rs` (the fused parser producing the `IR`),
the virtual machine of `src/virtual_machine.rs`, the naive baseline
interpreter of `src/instructions.rs`, and the line enumerator of
`src/string_utils.rs`.

Modelling conventions:

* A source string is a `List Char`; positions are byte offsets computed with
  `Char.utf8Size`, mirroring Rust's `str::char_indices`.
* Machine integers (`usize`, `u8`) are `Nat` with explicit `% 2^w` where the
  Rust code wraps; where the Rust code would panic (subtraction overflow on
  `usize`, `unwrap()` of an error), the embedding returns an explicit error
  value (`Except.error` / `none`) instead.
* The byte tape is a total function `Nat → Nat`; the head index stays below
  30000 on every reachable state (the `Left`/`Right` arms keep it there), so
  the missing out-of-bounds panic of `tape[head]` is never observable.
* The `Vec<Expression>`-typed `VM::run` of `src/virtual_machine.rs` has no
  arms for `NOP`/`Zero` (those live in the `IR` type produced by
  `src/parser/mod.rs`); the two missing arms are modelled from the spec
  (§4.5): `Nop` does nothing, `Zero` writes 0 into the current cell.  All
  other arms are literal translations of the Rust.
-/

set_option maxRecDepth 20000

deriving instance DecidableEq for Except

namespace Brainfuck

/-- The IR instruction type of `src/ir.rs` (`enum Instruction`). -/
inductive Instruction where
  | NOP : Instruction
  | Left : Nat → Instruction
  | Right : Nat → Instruction
  | Add : Nat → Instruction
  | Sub : Nat → Instruction
  | Input : Nat → Instruction
  | Output : Nat → Instruction
  | Open : Nat → Instruction
  | Close : Nat → Instruction
  | Zero : Instruction
deriving DecidableEq

namespace Instruction

/-- `Instruction::argument` (src/ir.rs). -/
def argument : Instruction → Nat
  | .NOP | .Zero => 0
  | .Left a | .Right a | .Add a | .Sub a | .Input a | .Output a
  | .Open a | .Close a => a

/-- `Instruction::is_degenerate` (src/ir.rs): a counted instruction whose
payload is zero. -/
def isDegenerate : Instruction → Bool
  | .Left a | .Right a | .Add a | .Sub a | .Input a | .Output a => a = 0
  | _ => false

/-- `Instruction::is_nop` (src/ir.rs). -/
def isNop : Instruction → Bool
  | .NOP => true
  | _ => false

/-- `Instruction::is_sub` (src/ir.rs). -/
def isSub : Instruction → Bool
  | .Sub _ => true
  | _ => false

/-- `Instruction::is_open` (src/ir.rs). -/
def isOpen : Instruction → Bool
  | .Open _ => true
  | _ => false

/-- `Instruction::is_close` (src/ir.rs). -/
def isClose : Instruction → Bool
  | .Close _ => true
  | _ => false

/-- `Instruction::combine` (src/ir.rs): the only fusions permitted; a fused
run whose net count is zero collapses to `NOP`. -/
def combine (x y : Instruction) : Option Instruction :=
  let raw : Option Instruction :=
    match x, y with
    | .Left a, .Left b => some (.Left (a + b))
    | .Right a, .Right b => some (.Right (a + b))
    | .Left l, .Right r => some (if r > l then .Right (r - l) else .Left (l - r))
    | .Right r, .Left l => some (if r > l then .Right (r - l) else .Left (l - r))
    | .Add a, .Add b => some (.Add (a + b))
    | .Sub a, .Sub b => some (.Sub (a + b))
    | .Add a, .Sub s => some (if a > s then .Add (a - s) else .Sub (s - a))
    | .Sub s, .Add a => some (if a > s then .Add (a - s) else .Sub (s - a))
    | .Input a, .Input b => some (.Input (a + b))
    | .Output a, .Output b => some (.Output (a + b))
    | .Zero, .Zero => some .Zero
    | _, _ => none
  raw.map (fun r => if r.isDegenerate then .NOP else r)

/-- `TryFrom<char> for Instruction` (src/ir.rs lines 191-207): the token
classifier. -/
def tryFromChar (c : Char) : Option Instruction :=
  if c = '<' then some (.Left 1)
  else if c = '>' then some (.Right 1)
  else if c = '+' then some (.Add 1)
  else if c = '-' then some (.Sub 1)
  else if c = ',' then some (.Input 1)
  else if c = '.' then some (.Output 1)
  else if c = '[' then some (.Open 1)
  else if c = ']' then some (.Close 1)
  else none

/-- `TryFrom<&[Instruction]> for Instruction` (src/ir.rs lines 233-246): the
peephole pattern, recognizing a loop body that is exactly one `Sub(1)`. -/
def tryFromSlice : List Instruction → Option Instruction
  | [x] => if x.isSub ∧ x.argument = 1 then some .Zero else none
  | _ => none

end Instruction

/-- `str::char_indices` starting at byte offset `n`: each character paired
with its byte offset. -/
def charIndicesFrom (n : Nat) : List Char → List (Nat × Char)
  | [] => []
  | c :: cs => (n, c) :: charIndicesFrom (n + c.utf8Size) cs

/-- The run fuser of src/parser/mod.rs (`InstructionWithIndex::try_from`,
lines 33-54, driven to exhaustion by the `while let` of `Parser::parse`):
skip non-instruction characters; on an instruction character start a group
at its offset (`beginning = end = offset`); greedily consume further
characters as long as each classifies as an instruction that `combine`s
with the running one, moving `end` to each consumed offset; a character
that is not an instruction or does not combine ends the group and is
reconsidered as the start of the next one.  The `Peekable`-driven loop is
materialized as a single scan whose second argument is the in-progress
group (fused instruction, beginning, end), if any. -/
def groupsGo :
    List (Nat × Char) → Option (Instruction × Nat × Nat) →
    List (Instruction × Nat × Nat)
  | [], none => []
  | [], some g => [g]
  | (i, c) :: rest, none =>
    match Instruction.tryFromChar c with
    | none => groupsGo rest none
    | some ins => groupsGo rest (some (ins, i, i))
  | (i, c) :: rest, some (ins, b, e) =>
    match Instruction.tryFromChar c with
    | none => (ins, b, e) :: groupsGo rest none
    | some next =>
      match ins.combine next with
      | some fused => groupsGo rest (some (fused, b, i))
      | none => (ins, b, e) :: groupsGo rest (some (next, i, i))

/-- The stream of grouped tokens of a source stream. -/
def groups (l : List (Nat × Char)) : List (Instruction × Nat × Nat) :=
  groupsGo l none

/-- `Warning::NOP(beginning, end, text)` (src/parser/warning.rs). -/
structure Warning where
  beginning : Nat
  ending : Nat
  text : List Char
deriving DecidableEq

/-- `Fatal::MismatchedBracket(offset, bracket)` (src/parser/fatal.rs); the
`String` payload is the display form of the offending bracket, recorded
here as the bracket character. -/
inductive Fatal where
  | mismatchedBracket : Nat → Char → Fatal
deriving DecidableEq

/-- The byte slice `&string[b..=e]` used for warning text
(src/parser/mod.rs line 108): the characters whose byte offsets lie in the
inclusive range. -/
def sliceIncl (src : List Char) (b e : Nat) : List Char :=
  ((charIndicesFrom 0 src).filter (fun p => b ≤ p.1 ∧ p.1 ≤ e)).map Prod.snd

/-- The mutable state of `Parser::parse` (src/parser/mod.rs): the growing
IR, the bracket stack of `JumpIndex` records (IR index of the `Open`, byte
offset of the `[`; head of the list is the top of the stack), and the
warnings list. -/
structure PState where
  ir : List Instruction
  brackets : List (Nat × Nat)
  warnings : List Warning
deriving DecidableEq

/-- One iteration of the `while let` loop of `Parser::parse`
(src/parser/mod.rs lines 78-113), processing a single grouped token. -/
def applyGroup (src : List Char) :
    Instruction × Nat × Nat → PState → Except Fatal PState
  | (ins, b, e), st =>
    if ins.isOpen then
      .ok ⟨st.ir ++ [ins], (st.ir.length, b) :: st.brackets, st.warnings⟩
    else if ins.isClose then
      match st.brackets with
      | [] => .error (.mismatchedBracket b ']')
      | (openIdx, _) :: rest =>
        match Instruction.tryFromSlice (st.ir.drop (openIdx + 1)) with
        | some meta =>
          .ok ⟨st.ir.take openIdx ++ [meta], rest, st.warnings⟩
        | none =>
          .ok ⟨(st.ir.set openIdx (.Open st.ir.length)) ++ [.Close openIdx],
               rest, st.warnings⟩
    else if ins.isNop then
      .ok ⟨st.ir ++ [ins], st.brackets,
           st.warnings ++ [⟨b, e, sliceIncl src b e⟩]⟩
    else
      .ok ⟨st.ir ++ [ins], st.brackets, st.warnings⟩

/-- The grouped-token loop of `Parser::parse` plus the final bracket-stack
check (src/parser/mod.rs lines 78-122). -/
def assemble (src : List Char) :
    List (Instruction × Nat × Nat) → PState →
    Except Fatal (List Instruction × List Warning)
  | [], st =>
    match st.brackets with
    | [] => .ok (st.ir, st.warnings)
    | q :: _ => .error (.mismatchedBracket q.2 '[')
  | g :: gs, st =>
    match applyGroup src g st with
    | .error e => .error e
    | .ok st' => assemble src gs st'

/-- `Parser::parse` (src/parser/mod.rs lines 74-123) on a fresh
`Parser::default()`. -/
def parseChars (src : List Char) :
    Except Fatal (List Instruction × List Warning) :=
  assemble src (groups (charIndicesFrom 0 src)) ⟨[], [], []⟩

/-- The runtime errors of the VM: each corresponds to a panic site in the
Rust (`unwrap()` on a failed read, `usize` subtraction overflow). -/
inductive RuntimeError where
  | endOfInput : RuntimeError
  | headUnderflow : RuntimeError
  | jumpUnderflow : RuntimeError
  | scanOverflow : RuntimeError
deriving DecidableEq

/-- The registers and streams of `VM` (src/virtual_machine.rs): program
counter, head pointer, byte tape, remaining input bytes and produced output
bytes.  The tape is a total function; cells hold byte values. -/
structure VMState where
  pc : Nat
  head : Nat
  tape : Nat → Nat
  input : List Nat
  output : List Nat

/-- The `Input(times)` loop (src/virtual_machine.rs lines 72-79): read one
byte per iteration into the current cell; a `read_exact` on an exhausted
reader fails and the code `unwrap()`s it, modelled as `endOfInput`. -/
def doReads : Nat → VMState → Except RuntimeError VMState
  | 0, s => .ok s
  | n + 1, s =>
    match s.input with
    | [] => .error .endOfInput
    | b :: rest =>
      doReads n { s with tape := Function.update s.tape s.head b, input := rest }

/-- One iteration of the dispatch loop of `VM::run`
(src/virtual_machine.rs lines 56-103), including the trailing
`increase_pc`.  The `NOP` and `Zero` arms are modelled from the spec
(§4.5): `Nop` does nothing and `Zero` sets the current cell to 0; the Rust
in src/ only has the eight `Expression` arms.  The `Left` arm mirrors
`30_000 - (a - head)`: when that `usize` subtraction would overflow
(`a - head > 30000`), the embedding reports `headUnderflow`. -/
def stepVM (i : Instruction) (s : VMState) : Except RuntimeError VMState :=
  match i with
  | .NOP => .ok { s with pc := s.pc + 1 }
  | .Left a =>
    if a > s.head then
      if a - s.head > 30000 then .error .headUnderflow
      else .ok { s with head := 30000 - (a - s.head), pc := s.pc + 1 }
    else .ok { s with head := s.head - a, pc := s.pc + 1 }
  | .Right a => .ok { s with head := (s.head + a) % 30000, pc := s.pc + 1 }
  | .Add a =>
    .ok { s with
          tape := Function.update s.tape s.head ((s.tape s.head + a % 256) % 256),
          pc := s.pc + 1 }
  | .Sub a =>
    .ok { s with
          tape := Function.update s.tape s.head ((s.tape s.head + (256 - a % 256)) % 256),
          pc := s.pc + 1 }
  | .Input times => (doReads times s).map (fun s' => { s' with pc := s'.pc + 1 })
  | .Output times =>
    .ok { s with
          output := s.output ++ List.replicate times (s.tape s.head),
          pc := s.pc + 1 }
  | .Open close =>
    if s.tape s.head = 0 then
      if close = 0 then .error .jumpUnderflow
      else .ok { s with pc := (close - 1) + 1 }
    else .ok { s with pc := s.pc + 1 }
  | .Close tgt =>
    if s.tape s.head ≠ 0 then .ok { s with pc := tgt + 1 }
    else .ok { s with pc := s.pc + 1 }
  | .Zero =>
    .ok { s with tape := Function.update s.tape s.head 0, pc := s.pc + 1 }

/-- The observable outcome of running a machine for a bounded number of
steps. -/
inductive RunResult where
  | timeout : RunResult
  | done : VMState → RunResult
  | fault : RuntimeError → RunResult

/-- The `while !self.done()` loop of `VM::run` (src/virtual_machine.rs
lines 56-103), fuel-bounded. -/
def runVM : Nat → List Instruction → VMState → RunResult
  | 0, _, _ => .timeout
  | fuel + 1, prog, s =>
    match prog[s.pc]? with
    | none => .done s
    | some i =>
      match stepVM i s with
      | .error e => .fault e
      | .ok s' => runVM fuel prog s'

/-- The payload-free instruction type of the naive baseline interpreter
(src/instructions.rs `enum Instruction`). -/
inductive NInstruction where
  | Left | Right | Less | More | Input | Output | Open | Close
deriving DecidableEq

/-- `TryFrom<char> for Instruction` (src/instructions.rs lines 61-77). -/
def classifyN (c : Char) : Option NInstruction :=
  if c = '<' then some .Left
  else if c = '>' then some .Right
  else if c = '-' then some .Less
  else if c = '+' then some .More
  else if c = ',' then some .Input
  else if c = '.' then some .Output
  else if c = '[' then some .Open
  else if c = ']' then some .Close
  else none

/-- `FromStr for Instructions` (src/instructions.rs lines 119-151): one IR
element per instruction character, with a bracket-balance check.  The
stack of `Position`s is modelled by its depth; the error payloads (line and
column of the offending bracket) are elided because only success matters
here. -/
def nparseGo : List Char → Nat → Option (List NInstruction)
  | [], depth => if depth = 0 then some [] else none
  | c :: cs, depth =>
    match classifyN c with
    | none => nparseGo cs depth
    | some i =>
      if i = .Open then (nparseGo cs (depth + 1)).map (i :: ·)
      else if i = .Close then
        match depth with
        | 0 => none
        | d + 1 => (nparseGo cs d).map (i :: ·)
      else (nparseGo cs depth).map (i :: ·)

/-- `FromStr for Instructions`, entry point. -/
def nparse (src : List Char) : Option (List NInstruction) := nparseGo src 0

/-- The depth adjustment of the bracket-seeking loops in
src/instructions.rs (lines 186-192 and 202-208): `is_open` increments,
`is_close` decrements. -/
def adjDepth (i : NInstruction) : Int :=
  if i = .Open then 1 else if i = .Close then -1 else 0

/-- The forward scan of the `Open` arm (src/instructions.rs lines 181-196):
starting at `pc`, stop at the first `Close` reached with depth 0.  `none`
models the out-of-bounds panic of `ir[pc]` when the scan runs off the end. -/
def findClose (prog : List NInstruction) (pc : Nat) (depth : Int) : Option Nat :=
  match h : prog[pc]? with
  | none => none
  | some i =>
    if depth = 0 ∧ i = .Close then some pc
    else findClose prog (pc + 1) (depth + adjDepth i)
termination_by prog.length - pc
decreasing_by
  have hlt : pc < prog.length := by
    by_contra hge
    rw [List.getElem?_eq_none (by omega)] at h
    exact Option.noConfusion h
  omega

/-- The backward scan of the `Close` arm (src/instructions.rs lines
197-211): starting at `pc`, stop at the first `Open` reached with depth 0.
`none` models the `usize` underflow panic of `pc -= 1` at position 0. -/
def findOpen (prog : List NInstruction) (pc : Nat) (depth : Int) : Option Nat :=
  match prog[pc]? with
  | none => none
  | some i =>
    if depth = 0 ∧ i = .Open then some pc
    else if pc = 0 then none
    else findOpen prog (pc - 1) (depth + adjDepth i)
termination_by pc

/-- One iteration of `Instructions::execute` (src/instructions.rs lines
165-215), including the trailing `pc += 1`. -/
def nstep (prog : List NInstruction) (i : NInstruction) (s : VMState) :
    Except RuntimeError VMState :=
  match i with
  | .Left =>
    .ok { s with head := if s.head = 0 then 29999 else s.head - 1, pc := s.pc + 1 }
  | .Right =>
    .ok { s with head := if s.head = 29999 then 0 else s.head + 1, pc := s.pc + 1 }
  | .Less =>
    .ok { s with
          tape := Function.update s.tape s.head ((s.tape s.head + 255) % 256),
          pc := s.pc + 1 }
  | .More =>
    .ok { s with
          tape := Function.update s.tape s.head ((s.tape s.head + 1) % 256),
          pc := s.pc + 1 }
  | .Input =>
    match s.input with
    | [] => .error .endOfInput
    | b :: rest =>
      .ok { s with
            tape := Function.update s.tape s.head b,
            input := rest,
            pc := s.pc + 1 }
  | .Output => .ok { s with output := s.output ++ [s.tape s.head], pc := s.pc + 1 }
  | .Open =>
    if s.tape s.head = 0 then
      match findClose prog (s.pc + 1) 0 with
      | none => .error .scanOverflow
      | some q => .ok { s with pc := (q - 1) + 1 }
    else .ok { s with pc := s.pc + 1 }
  | .Close =>
    if s.tape s.head ≠ 0 then
      if s.pc = 0 then .error .scanOverflow
      else
        match findOpen prog (s.pc - 1) 0 with
        | none => .error .scanOverflow
        | some q => .ok { s with pc := q + 1 }
    else .ok { s with pc := s.pc + 1 }

/-- The `while pc < len` loop of `Instructions::execute`
(src/instructions.rs lines 165-215), fuel-bounded. -/
def nrun : Nat → List NInstruction → VMState → RunResult
  | 0, _, _ => .timeout
  | fuel + 1, prog, s =>
    match prog[s.pc]? with
    | none => .done s
    | some i =>
      match nstep prog i s with
      | .error e => .fault e
      | .ok s' => nrun fuel prog s'

/-- The bracket characters of an indexed character stream, in order. -/
def bracketsOfStream (l : List (Nat × Char)) : List (Nat × Char) :=
  l.filter (fun p => p.2 = '[' ∨ p.2 = ']')

/-- The bracket a grouped token contributes, if any, with its beginning
offset. -/
def groupBracket (g : Instruction × Nat × Nat) : Option (Nat × Char) :=
  if g.1.isOpen then some (g.2.1, '[')
  else if g.1.isClose then some (g.2.1, ']') else none

/-- The bracket groups of a grouped-token stream, with their beginning
offsets. -/
def bracketsOfGroups (gs : List (Instruction × Nat × Nat)) : List (Nat × Char) :=
  gs.filterMap groupBracket

/-- The brackets contributed by an in-progress fuser group. -/
def curBrackets : Option (Instruction × Nat × Nat) → List (Nat × Char)
  | none => []
  | some g => (groupBracket g).toList

/-- Plain bracket matching over an indexed stream of bracket characters:
push offsets of `[`, pop on `]`; `none` on a `]` with an empty stack; the
final stack (top first) otherwise. -/
def scanB : List (Nat × Char) → List Nat → Option (List Nat)
  | [], acc => some acc
  | (i, c) :: rest, acc =>
    if c = '[' then scanB rest (i :: acc)
    else if c = ']' then
      match acc with
      | [] => none
      | _ :: acc' => scanB rest acc'
    else scanB rest acc

/-- The `NOP` warnings contributed by a list of grouped tokens: one per
fused run that collapsed to `NOP`, in order, carrying the run's byte range
and covered text. -/
def nopOf (src : List Char) (gs : List (Instruction × Nat × Nat)) :
    List Warning :=
  gs.filterMap (fun g =>
    if g.1.isNop then some ⟨g.2.1, g.2.2, sliceIncl src g.2.1 g.2.2⟩ else none)

/-- The expected warning list for a source: one `NOP` warning per fused
run whose net effect is zero, in source order. -/
def nopWarningsOf (src : List Char) : List Warning :=
  nopOf src (groups (charIndicesFrom 0 src))

/-- `str::lines` on a character list: split on newline, with an optional
final line terminator (carriage returns are not treated specially). -/
def linesOf (s : List Char) : List (List Char) :=
  let parts := s.splitOn '\n'
  if parts.getLast? = some [] then parts.dropLast else parts

/-- `CharPositionEnumerate::from` (src/string_utils.rs lines 45-56): takes
the first line with `lines.next().unwrap()`; `none` models that `unwrap`
panicking when the source has no lines (the empty string). -/
def charPositionEnumerateFrom (s : List Char) :
    Option (List (List Char) × List Char) :=
  match linesOf s with
  | [] => none
  | l :: ls => some (ls, l)

/-- The initial VM state for a given input: `pc = 0`, `head = 0`, an
all-zero tape, no output yet. -/
def initState (input : List Nat) : VMState :=
  ⟨0, 0, fun _ => 0, input, []⟩

/-- A concrete VM state (head 5, constant tape 7) used to instantiate
theorems. -/
def wState : VMState :=
  ⟨0, 5, fun _ => 7, [], []⟩

/-- The source `<` repeated 30001 times followed by `.`: it parses
successfully, so fusion equivalence should apply to it. -/
def c1Src : List Char := List.replicate 30001 '<' ++ ['.']

/-- The baseline program for `c1Src`: one element per instruction
character. -/
def c1Baseline : List NInstruction := List.replicate 30001 .Left ++ [.Output]

/-- A concrete VM state (cell value 9 at head 2) used to instantiate the
peephole equivalence. -/
def wZeroState : VMState :=
  ⟨0, 2, fun i => if i = 2 then 9 else 0, [4], [6]⟩

/-- A concrete parser state (an `Open` placeholder and a `Sub 1` body, one
open bracket on the stack) used to instantiate the peephole rewrite. -/
def wPState : PState :=
  ⟨[.Open 1, .Sub 1], [(0, 0)], []⟩

/-- The bracket invariant maintained by `Parser::parse`: the stack holds
(strictly descending) IR indices of still-open `Open`s; every `Open` not on
the stack is cross-linked with its `Close` and vice versa; matched pairs
never straddle a live stack entry; and matched pairs are properly nested
(never crossing). -/
structure BracketInv (ir : List Instruction) (stk : List (Nat × Nat)) : Prop where
  stk_lt : ∀ q ∈ stk, q.1 < ir.length
  stk_open : ∀ q ∈ stk, ∃ a, ir[q.1]? = some (.Open a)
  stk_sorted : (stk.map Prod.fst).Pairwise (· > ·)
  open_matched : ∀ i a, ir[i]? = some (.Open a) →
    (∀ q ∈ stk, q.1 ≠ i) → i < a ∧ ir[a]? = some (.Close i)
  close_matched : ∀ i j, ir[j]? = some (.Close i) →
    i < j ∧ ir[i]? = some (.Open j) ∧ ∀ q ∈ stk, q.1 ≠ i
  pair_stk : ∀ i j, ir[j]? = some (.Close i) → ∀ q ∈ stk, q.1 < i ∨ j < q.1
  pair_nest : ∀ i j i' j' : Nat, ir[j]? = some (Instruction.Close i) →
    ir[j']? = some (Instruction.Close i') → i < i' → j' < j ∨ j < i'

/-- `doReads` fails with `endOfInput` when fewer input bytes remain than
reads requested (the `read_exact(..).unwrap()` panic site). -/
theorem doReads_short : ∀ (n : Nat) (s : VMState), s.input.length < n →
    doReads n s = .error .endOfInput := by
  intro n
  induction n with
  | zero => intro s h; omega
  | succ m ih =>
    intro s h
    match hi : s.input with
    | [] => simp [doReads, hi]
    | b :: rest =>
      simp only [doReads, hi]
      apply ih
      rw [hi] at h
      simpa using h

/-- Claim C6: when an `Input` step finds the input stream exhausted,
execution aborts immediately, the error surfaces as the outcome of `run`,
and no byte is assigned to the current cell (the step never returns a
successor state). -/
theorem c6_input_exhausted (prog : List Instruction) (s : VMState)
    (times fuel : Nat)
    (hfetch : prog[s.pc]? = some (.Input times))
    (hshort : s.input.length < times) :
    stepVM (.Input times) s = .error .endOfInput
  ∧ runVM (fuel + 1) prog s = .fault .endOfInput
  ∧ ∀ s', stepVM (.Input times) s ≠ .ok s' := by
  have hstep : stepVM (.Input times) s = .error .endOfInput := by
    simp only [stepVM, doReads_short times s hshort]
    rfl
  refine ⟨hstep, ?_, ?_⟩
  · simp [runVM, hfetch, hstep]
  · intro s' h
    rw [hstep] at h
    exact Except.noConfusion h

/-- Witness for C6 at the concrete program `,` with empty input. -/
theorem c6_input_exhausted_witness :
    ([Instruction.Input 1][(initState ([] : List Nat)).pc]? =
        some (Instruction.Input 1)
      ∧ (initState ([] : List Nat)).input.length < 1)
  ∧ runVM 1 [Instruction.Input 1] (initState []) = .fault .endOfInput := by
  refine ⟨⟨by decide, by decide⟩, ?_⟩
  exact (c6_input_exhausted [Instruction.Input 1] (initState []) 1 0
    (by decide) (by decide)).2.1

/-- Claim C5 counterexample: a `Left` step with payload 30001 from head 0
faults (the `usize` subtraction `30000 - (30001 - 0)` overflows) instead of
wrapping to head 29999 as the claim states for "any a ≥ 0". -/
theorem c5_counterexample :
    stepVM (.Left 30001) (initState []) = .error .headUnderflow
  ∧ stepVM (.Left 30001) (initState []) ≠
      .ok { initState [] with head := 29999, pc := 1 } := by
  refine ⟨rfl, ?_⟩
  intro h
  rw [(rfl :
    stepVM (.Left 30001) (initState []) = .error .headUnderflow)] at h
  exact Except.noConfusion h

/-- Claim C5 (amended): with the head in range, `Right(a)` moves to
`(head + a) mod 30000` for any `a`, `Left(a)` moves to `(head − a) mod
30000` exactly when `a − head ≤ 30000` (in particular whenever
`a ≤ 30000`); when `a − head > 30000` the `usize` subtraction
`30000 − (a − head)` overflows and the step faults instead of wrapping.
`Add(a)`/`Sub(a)` update the current cell modulo 256 for any `a`; each
non-faulting step completes and leaves the head in `[0, 30000)`. -/
theorem c5_step_bounds (s : VMState) (a : Nat) (hhead : s.head < 30000) :
    (∃ s', stepVM (.Right a) s = .ok s' ∧ s'.head = (s.head + a) % 30000
      ∧ s'.head < 30000 ∧ s'.pc = s.pc + 1 ∧ s'.tape = s.tape
      ∧ s'.input = s.input ∧ s'.output = s.output)
  ∧ (a ≤ s.head + 30000 →
      ∃ s', stepVM (.Left a) s = .ok s'
        ∧ (s'.head : Int) = ((s.head : Int) - (a : Int)) % 30000
        ∧ s'.head < 30000 ∧ s'.pc = s.pc + 1 ∧ s'.tape = s.tape
        ∧ s'.input = s.input ∧ s'.output = s.output)
  ∧ (s.head + 30000 < a →
      stepVM (.Left a) s = .error .headUnderflow)
  ∧ (∃ s', stepVM (.Add a) s = .ok s'
      ∧ s'.tape s.head = (s.tape s.head + a) % 256
      ∧ (∀ i, i ≠ s.head → s'.tape i = s.tape i)
      ∧ s'.head = s.head ∧ s'.head < 30000 ∧ s'.pc = s.pc + 1
      ∧ s'.input = s.input ∧ s'.output = s.output)
  ∧ (∃ s', stepVM (.Sub a) s = .ok s'
      ∧ (s'.tape s.head : Int) = ((s.tape s.head : Int) - (a : Int)) % 256
      ∧ (∀ i, i ≠ s.head → s'.tape i = s.tape i)
      ∧ s'.head = s.head ∧ s'.head < 30000 ∧ s'.pc = s.pc + 1
      ∧ s'.input = s.input ∧ s'.output = s.output) := by
  refine ⟨?_, ?_, ?_, ?_, ?_⟩
  · refine ⟨_, rfl, rfl, Nat.mod_lt _ (by omega), rfl, rfl, rfl, rfl⟩
  · intro ha
    by_cases hgt : a > s.head
    · have hno : ¬ (a - s.head > 30000) := by omega
      refine ⟨{ s with head := 30000 - (a - s.head), pc := s.pc + 1 },
        ?_, ?_, by simp; omega, rfl, rfl, rfl, rfl⟩
      · simp only [stepVM, if_pos hgt, if_neg hno]
      · show ((30000 - (a - s.head) : Nat) : Int) = _
        omega
    · refine ⟨{ s with head := s.head - a, pc := s.pc + 1 },
        ?_, ?_, by simp; omega, rfl, rfl, rfl, rfl⟩
      · simp only [stepVM, if_neg hgt]
      · show ((s.head - a : Nat) : Int) = _
        omega
  · intro ha
    have hgt : a > s.head := by omega
    have hbig : a - s.head > 30000 := by omega
    simp only [stepVM, if_pos hgt, if_pos hbig]
  · refine ⟨_, rfl, ?_, ?_, rfl, hhead, rfl, rfl, rfl⟩
    · simp only [Function.update_same]
      omega
    · intro i hi
      exact Function.update_noteq hi _ _
  · refine ⟨_, rfl, ?_, ?_, rfl, hhead, rfl, rfl, rfl⟩
    · simp only [Function.update_same]
      omega
    · intro i hi
      exact Function.update_noteq hi _ _

/-- Witness for C5 at head 5: payload 3 wraps in range, payload 30006
(where `a − head = 30001 > 30000`) faults. -/
theorem c5_step_bounds_witness :
    (wState.head < 30000 ∧ (3 : Nat) ≤ wState.head + 30000
      ∧ wState.head + 30000 < 30006)
  ∧ (∃ s', stepVM (.Left 3) wState = .ok s'
      ∧ (s'.head : Int) = ((wState.head : Int) - (3 : Int)) % 30000)
  ∧ stepVM (.Left 30006) wState = .error .headUnderflow := by
  refine ⟨⟨by decide, by decide, by decide⟩, ?_, ?_⟩
  · obtain ⟨s', h1, h2, -⟩ :=
      (c5_step_bounds wState 3 (by decide)).2.1 (by decide)
    exact ⟨s', h1, h2⟩
  · exact (c5_step_bounds wState 30006 (by decide)).2.2.1 (by decide)

/-- Claim C9 counterexample: the classifier produces `Open` and `Close`
with payload 1, not payload 0 as the claim states. -/
theorem c9_counterexample :
    Instruction.tryFromChar '[' = some (.Open 1)
  ∧ Instruction.tryFromChar ']' = some (.Close 1)
  ∧ Instruction.tryFromChar '[' ≠ some (.Open 0)
  ∧ Instruction.tryFromChar ']' ≠ some (.Close 0) := by
  refine ⟨by decide, by decide, by decide, by decide⟩

/-- Claim C9 (amended): the classifier maps each of the eight instruction
characters to its instruction kind — the counted kinds with initial payload
1, and `Open`/`Close` with placeholder payload 1 — and every other
character to "not an instruction". -/
theorem c9_classifier :
    Instruction.tryFromChar '<' = some (.Left 1)
  ∧ Instruction.tryFromChar '>' = some (.Right 1)
  ∧ Instruction.tryFromChar '+' = some (.Add 1)
  ∧ Instruction.tryFromChar '-' = some (.Sub 1)
  ∧ Instruction.tryFromChar ',' = some (.Input 1)
  ∧ Instruction.tryFromChar '.' = some (.Output 1)
  ∧ Instruction.tryFromChar '[' = some (.Open 1)
  ∧ Instruction.tryFromChar ']' = some (.Close 1)
  ∧ ∀ c : Char, c ≠ '<' → c ≠ '>' → c ≠ '+' → c ≠ '-' → c ≠ ',' → c ≠ '.' →
      c ≠ '[' → c ≠ ']' → Instruction.tryFromChar c = none := by
  refine ⟨by decide, by decide, by decide, by decide, by decide, by decide,
    by decide, by decide, ?_⟩
  intro c h1 h2 h3 h4 h5 h6 h7 h8
  simp [Instruction.tryFromChar, h1, h2, h3, h4, h5, h6, h7, h8]

/-- Witness for C9 at the non-instruction character `x`. -/
theorem c9_classifier_witness :
    Instruction.tryFromChar 'x' = none
  ∧ Instruction.tryFromChar '<' = some (.Left 1) := by
  exact ⟨c9_classifier.2.2.2.2.2.2.2.2 'x' (by decide) (by decide) (by decide)
      (by decide) (by decide) (by decide) (by decide) (by decide),
    c9_classifier.1⟩

/-- Claim C7 counterexample: on the source `[[` both `[` are unmatched;
the bottom-most (earliest-pushed) one is at byte offset 0, yet the parse
error carries offset 1 — the offset of the most recently pushed unmatched
`[` (`brackets.pop()` pops the top of the stack). -/
theorem c7_counterexample :
    parseChars ['[', '['] = .error (.mismatchedBracket 1 '[')
  ∧ Fatal.mismatchedBracket 1 '[' ≠ Fatal.mismatchedBracket 0 '[' := by
  refine ⟨by decide, by decide⟩

/-- Claim C4 evaluated at a failing input: 256 consecutive `+` fuse to a
single `Add` whose payload 256 is kept as-is by `Parser::parse` — no
mod-256 (and likewise no mod-30000) reduction step exists in
src/parser/mod.rs — so the claimed bound `payload < 256` fails on the
parsed IR. -/
theorem c4_code_eval :
    parseChars (List.replicate 256 '+') = .ok ([.Add 256], [])
  ∧ ¬ Instruction.argument (.Add 256) < 256 := by
  exact ⟨by decide, by decide⟩

/-- Claim C10 evaluated: `Parser::parse` succeeds with an empty IR and no
warnings on the empty source and on instruction-free sources, and running
the empty IR halts at once leaving the input untouched; but the legacy
pipeline cited by the claim panics on the empty string:
`CharPositionEnumerate::from("")` (src/string_utils.rs line 47) calls
`lines.next().unwrap()` on an empty `lines` iterator. -/
theorem c10_code_eval :
    parseChars [] = .ok ([], [])
  ∧ parseChars ['a', '\n', 'b'] = .ok ([], [])
  ∧ runVM 1 [] (initState [5]) = .done (initState [5])
  ∧ charPositionEnumerateFrom [] = none := by
  refine ⟨by decide, by decide, rfl, by decide⟩

/-- Unfolding one successful iteration of the VM loop. -/
theorem runVM_step (fuel : Nat) (prog : List Instruction) (s s' : VMState)
    (i : Instruction) (hi : prog[s.pc]? = some i) (hs : stepVM i s = .ok s') :
    runVM (fuel + 1) prog s = runVM fuel prog s' := by
  simp [runVM, hi, hs]

/-- The VM loop halts when the program counter is past the end. -/
theorem runVM_done (fuel : Nat) (prog : List Instruction) (s : VMState)
    (h : prog[s.pc]? = none) : runVM (fuel + 1) prog s = .done s := by
  simp [runVM, h]

/-- Executing the decrement loop `[Open 2, Sub 1, Close 0]` from the `Sub`
(program counter 1) with a nonzero byte in the current cell terminates with
the cell zeroed and everything else unchanged. -/
theorem zeroLoop_run (c : Nat) : ∀ s : VMState, s.pc = 1 →
    s.tape s.head = c + 1 → c + 1 < 256 →
    ∃ n s', runVM n [.Open 2, .Sub 1, .Close 0] s = .done s'
      ∧ s'.pc = 3 ∧ s'.head = s.head ∧ s'.input = s.input
      ∧ s'.output = s.output
      ∧ s'.tape = Function.update s.tape s.head 0 := by
  induction c with
  | zero =>
    intro s hpc hcell _
    have hfetch1 : [Instruction.Open 2, .Sub 1, .Close 0][s.pc]? =
        some (.Sub 1) := by rw [hpc]; rfl
    have hv : (s.tape s.head + (256 - 1 % 256)) % 256 = 0 := by
      rw [hcell]
    set s1 : VMState :=
      { s with tape := Function.update s.tape s.head 0, pc := s.pc + 1 } with hs1
    have hstep1 : stepVM (.Sub 1) s = .ok s1 := by
      simp only [stepVM, hv, hs1]
    have hfetch2 : [Instruction.Open 2, .Sub 1, .Close 0][s1.pc]? =
        some (.Close 0) := by simp [hs1, hpc]
    have hcell1 : s1.tape s1.head = 0 := by simp [hs1]
    have hstep2 : stepVM (.Close 0) s1 = .ok { s1 with pc := s1.pc + 1 } := by
      simp [stepVM, hcell1]
    refine ⟨3, { s1 with pc := s1.pc + 1 }, ?_, ?_, rfl, rfl, rfl, rfl⟩
    · rw [runVM_step 2 _ _ _ _ hfetch1 hstep1,
        runVM_step 1 _ _ _ _ hfetch2 hstep2]
      apply runVM_done
      simp [hs1, hpc]
    · simp [hs1, hpc]
  | succ c' ih =>
    intro s hpc hcell hlt
    have hfetch1 : [Instruction.Open 2, .Sub 1, .Close 0][s.pc]? =
        some (.Sub 1) := by rw [hpc]; rfl
    have hv : (s.tape s.head + (256 - 1 % 256)) % 256 = c' + 1 := by
      rw [hcell]; omega
    set s1 : VMState :=
      { s with tape := Function.update s.tape s.head (c' + 1), pc := s.pc + 1 }
      with hs1
    have hstep1 : stepVM (.Sub 1) s = .ok s1 := by
      simp only [stepVM, hv, hs1]
    have hfetch2 : [Instruction.Open 2, .Sub 1, .Close 0][s1.pc]? =
        some (.Close 0) := by simp [hs1, hpc]
    have hcell1 : s1.tape s1.head = c' + 1 := by simp [hs1]
    have hstep2 : stepVM (.Close 0) s1 = .ok { s1 with pc := 0 + 1 } := by
      simp [stepVM, hcell1]
    obtain ⟨n, s', hrun, h3, hh, hin, hout, htape⟩ :=
      ih { s1 with pc := 0 + 1 } rfl (by simp [hs1]) (by omega)
    refine ⟨n + 2, s', ?_, h3, ?_, hin, hout, ?_⟩
    · rw [runVM_step (n + 1) _ _ _ _ hfetch1 hstep1,
        runVM_step n _ _ _ _ hfetch2 hstep2]
      exact hrun
    · simpa [hs1] using hh
    · rw [htape]
      simp [hs1, Function.update_idem]

/-- Claim C3: when a `]` closes a bracket whose IR body (the slice from
`open_idx + 1` to the tail) is exactly a single `Sub(1)`, the assembler
truncates the IR at `open_idx` and appends a single `Zero` in place of the
three-instruction loop; and the replacement preserves the observable
behaviour for every input, output, head position, and initial cell (byte)
value: the loop `[Open 2, Sub 1, Close 0]` and the program `[Zero]` both
terminate having zeroed the current cell, with identical tape, head, input
and output. -/
theorem c3_peephole_zero :
    (∀ (st : PState) (openIdx pos b e : Nat) (rest : List (Nat × Nat))
        (src : List Char),
        st.brackets = (openIdx, pos) :: rest →
        st.ir.drop (openIdx + 1) = [.Sub 1] →
        applyGroup src (.Close 1, b, e) st =
          .ok ⟨st.ir.take openIdx ++ [.Zero], rest, st.warnings⟩)
  ∧ (∀ s : VMState, s.pc = 0 → s.tape s.head < 256 →
      ∃ n sL sZ, runVM n [.Open 2, .Sub 1, .Close 0] s = .done sL
        ∧ runVM 2 [.Zero] s = .done sZ
        ∧ sL.output = sZ.output ∧ sL.input = sZ.input ∧ sL.head = sZ.head
        ∧ sL.tape = sZ.tape
        ∧ sZ.tape = Function.update s.tape s.head 0
        ∧ sZ.output = s.output) := by
  constructor
  · intro st openIdx pos b e rest src hbr hdrop
    have hslice : Instruction.tryFromSlice (st.ir.drop (openIdx + 1)) =
        some .Zero := by
      rw [hdrop]; rfl
    simp only [applyGroup, Instruction.isOpen, Instruction.isClose,
      Bool.false_eq_true, if_false, if_true, hbr, hslice]
  · intro s hpc hcell
    have hZfetch : [Instruction.Zero][s.pc]? = some .Zero := by rw [hpc]; rfl
    set sZ : VMState :=
      { s with tape := Function.update s.tape s.head 0, pc := s.pc + 1 }
      with hsZ
    have hZstep : stepVM .Zero s = .ok sZ := rfl
    have hZrun : runVM 2 [Instruction.Zero] s = .done sZ := by
      rw [runVM_step 1 _ _ _ _ hZfetch hZstep]
      apply runVM_done
      simp [hsZ, hpc]
    have hLfetch : [Instruction.Open 2, .Sub 1, .Close 0][s.pc]? =
        some (.Open 2) := by rw [hpc]; rfl
    rcases hc : s.tape s.head with _ | c
    · -- cell already 0: the loop body is skipped
      have hLstep : stepVM (.Open 2) s = .ok { s with pc := (2 - 1) + 1 } := by
        simp [stepVM, hc]
      set s1 : VMState := { s with pc := (2 - 1) + 1 } with hs1
      have hfetch2 : [Instruction.Open 2, .Sub 1, .Close 0][s1.pc]? =
          some (.Close 0) := by rfl
      have hstep2 : stepVM (.Close 0) s1 = .ok { s1 with pc := s1.pc + 1 } := by
        simp [stepVM, hs1, hc]
      refine ⟨3, { s1 with pc := s1.pc + 1 }, sZ, ?_, hZrun, by simp [hsZ],
        by simp [hsZ], by simp [hs1, hsZ], ?_, by simp [hsZ], by simp [hsZ]⟩
      · rw [runVM_step 2 _ _ _ _ hLfetch hLstep,
          runVM_step 1 _ _ _ _ hfetch2 hstep2]
        apply runVM_done
        rfl
      · show s.tape = sZ.tape
        funext i
        by_cases hi : i = s.head
        · subst hi; simp [hsZ, hc]
        · simp [hsZ, Function.update_noteq hi]
    · -- cell nonzero: fall through into the decrement loop
      have hLstep : stepVM (.Open 2) s = .ok { s with pc := s.pc + 1 } := by
        simp [stepVM, hc]
      obtain ⟨n, s', hrun, h3, hh, hin, hout, htape⟩ :=
        zeroLoop_run c { s with pc := s.pc + 1 } (by rw [hpc]) (by simpa using hc)
          (by omega)
      refine ⟨n + 1, s', sZ, ?_, hZrun, by simp [hout, hsZ],
        by simp [hin, hsZ], by simp [hh, hsZ], by simp [htape, hsZ],
        by simp [hsZ], by simp [hsZ]⟩
      rw [runVM_step n _ _ _ _ hLfetch hLstep]
      exact hrun

/-- Witness for C3: the peephole rewrite on a concrete parser state, and
the behavioural equivalence at a concrete machine state with cell value 9. -/
theorem c3_peephole_zero_witness :
    (wPState.brackets = [(0, 0)] ∧ wPState.ir.drop 1 = [.Sub 1]
      ∧ applyGroup [] (.Close 1, 2, 2) wPState = .ok ⟨[.Zero], [], []⟩)
  ∧ (wZeroState.pc = 0 ∧ wZeroState.tape wZeroState.head < 256
      ∧ ∃ n sL sZ, runVM n [.Open 2, .Sub 1, .Close 0] wZeroState = .done sL
          ∧ runVM 2 [.Zero] wZeroState = .done sZ ∧ sL.output = sZ.output) := by
  refine ⟨⟨rfl, rfl, ?_⟩, rfl, by decide, ?_⟩
  · exact c3_peephole_zero.1 wPState 0 0 2 2 [] [] rfl rfl
  · obtain ⟨n, sL, sZ, h1, h2, h3, -⟩ :=
      c3_peephole_zero.2 wZeroState rfl (by decide)
    exact ⟨n, sL, sZ, h1, h2, h3⟩

/-- An index with a value is in range. -/
theorem lt_of_getElem?_some {α} {l : List α} {k : Nat} {y : α}
    (h : l[k]? = some y) : k < l.length := by
  by_contra hge
  rw [List.getElem?_eq_none (by omega)] at h
  exact Option.noConfusion h

/-- Reading below the length of the prefix of an append. -/
theorem getElem?_snoc_lt {α} {l : List α} (x : α) {k : Nat}
    (h : k < l.length) : (l ++ [x])[k]? = l[k]? := by
  rw [List.getElem?_append]
  simp [h]

/-- Reading the appended element. -/
theorem getElem?_snoc_eq {α} (l : List α) (x : α) :
    (l ++ [x])[l.length]? = some x := by
  rw [List.getElem?_append]
  simp

/-- Case analysis for reading an appended list. -/
theorem getElem?_snoc_cases {α} {l : List α} {x : α} {k : Nat} {y : α}
    (h : (l ++ [x])[k]? = some y) :
    (k < l.length ∧ l[k]? = some y) ∨ (k = l.length ∧ y = x) := by
  have hk := lt_of_getElem?_some h
  simp only [List.length_append, List.length_cons, List.length_nil] at hk
  by_cases hlt : k < l.length
  · left
    exact ⟨hlt, by rwa [getElem?_snoc_lt x hlt] at h⟩
  · right
    have hke : k = l.length := by omega
    subst hke
    rw [getElem?_snoc_eq] at h
    exact ⟨rfl, (Option.some_inj.mp h).symm⟩

/-- `is_open` characterization. -/
theorem isOpen_iff {ins : Instruction} :
    ins.isOpen = true ↔ ∃ a, ins = .Open a := by
  cases ins <;> simp [Instruction.isOpen]

/-- `is_close` characterization. -/
theorem isClose_iff {ins : Instruction} :
    ins.isClose = true ↔ ∃ a, ins = .Close a := by
  cases ins <;> simp [Instruction.isClose]

/-- The peephole pattern fires exactly on the slice `[Sub 1]` and yields
`Zero`. -/
theorem tryFromSlice_eq_some {l : List Instruction} {m : Instruction}
    (h : Instruction.tryFromSlice l = some m) :
    m = .Zero ∧ l = [.Sub 1] := by
  match l with
  | [] => exact Option.noConfusion h
  | [x] =>
    by_cases hx : x.isSub ∧ x.argument = 1
    · have hx1 : x = .Sub 1 := by
        obtain ⟨hs, ha⟩ := hx
        cases x <;> simp [Instruction.isSub] at hs
        simp [Instruction.argument] at ha
        simp [ha]
      simp only [Instruction.tryFromSlice, if_pos hx] at h
      exact ⟨(Option.some_inj.mp h).symm, by rw [hx1]⟩
    · simp only [Instruction.tryFromSlice, if_neg hx] at h
      exact Option.noConfusion h
  | x :: y :: rest => exact Option.noConfusion h

/-- Appending a non-bracket instruction preserves the bracket invariant. -/
theorem BracketInv.push_plain {ir : List Instruction} {stk : List (Nat × Nat)}
    (x : Instruction) (hx1 : x.isOpen = false) (hx2 : x.isClose = false)
    (h : BracketInv ir stk) : BracketInv (ir ++ [x]) stk := by
  have hopen : ∀ {k a}, (ir ++ [x])[k]? = some (Instruction.Open a) →
      k < ir.length ∧ ir[k]? = some (Instruction.Open a) := by
    intro k a hk
    rcases getElem?_snoc_cases hk with ⟨h1, h2⟩ | ⟨h1, h2⟩
    · exact ⟨h1, h2⟩
    · rw [← h2] at hx1; simp [Instruction.isOpen] at hx1
  have hclose : ∀ {k a}, (ir ++ [x])[k]? = some (Instruction.Close a) →
      k < ir.length ∧ ir[k]? = some (Instruction.Close a) := by
    intro k a hk
    rcases getElem?_snoc_cases hk with ⟨h1, h2⟩ | ⟨h1, h2⟩
    · exact ⟨h1, h2⟩
    · rw [← h2] at hx2; simp [Instruction.isClose] at hx2
  refine ⟨?_, ?_, h.stk_sorted, ?_, ?_, ?_, ?_⟩
  · intro q hq
    have := h.stk_lt q hq
    simp only [List.length_append, List.length_cons, List.length_nil]
    omega
  · intro q hq
    obtain ⟨a, ha⟩ := h.stk_open q hq
    exact ⟨a, by rw [getElem?_snoc_lt x (lt_of_getElem?_some ha)]; exact ha⟩
  · intro i a hi hni
    obtain ⟨hlt, hi'⟩ := hopen hi
    obtain ⟨h1, h2⟩ := h.open_matched i a hi' hni
    exact ⟨h1, by rw [getElem?_snoc_lt x (lt_of_getElem?_some h2)]; exact h2⟩
  · intro i j hj
    obtain ⟨hlt, hj'⟩ := hclose hj
    obtain ⟨h1, h2, h3⟩ := h.close_matched i j hj'
    exact ⟨h1, by rw [getElem?_snoc_lt x (lt_of_getElem?_some h2)]; exact h2, h3⟩
  · intro i j hj q hq
    obtain ⟨hlt, hj'⟩ := hclose hj
    exact h.pair_stk i j hj' q hq
  · intro i j i' j' hj hj' hii
    exact h.pair_nest i j i' j' (hclose hj).2 (hclose hj').2 hii

/-- Pushing an `Open` (and its stack entry) preserves the bracket
invariant. -/
theorem BracketInv.push_open {ir : List Instruction} {stk : List (Nat × Nat)}
    (off a : Nat) (h : BracketInv ir stk) :
    BracketInv (ir ++ [.Open a]) ((ir.length, off) :: stk) := by
  have hclose : ∀ {k c}, (ir ++ [Instruction.Open a])[k]? =
      some (Instruction.Close c) →
      k < ir.length ∧ ir[k]? = some (Instruction.Close c) := by
    intro k c hk
    rcases getElem?_snoc_cases hk with ⟨h1, h2⟩ | ⟨h1, h2⟩
    · exact ⟨h1, h2⟩
    · exact Instruction.noConfusion h2
  refine ⟨?_, ?_, ?_, ?_, ?_, ?_, ?_⟩
  · intro q hq
    simp only [List.length_append, List.length_cons, List.length_nil]
    rcases List.mem_cons.mp hq with hq | hq
    · rw [hq]; omega
    · have := h.stk_lt q hq; omega
  · intro q hq
    rcases List.mem_cons.mp hq with hq | hq
    · rw [hq]
      exact ⟨a, getElem?_snoc_eq ir _⟩
    · obtain ⟨a', ha'⟩ := h.stk_open q hq
      exact ⟨a', by rw [getElem?_snoc_lt _ (lt_of_getElem?_some ha')]; exact ha'⟩
  · simp only [List.map_cons]
    refine List.Pairwise.cons ?_ h.stk_sorted
    intro m hm
    simp only [List.mem_map] at hm
    obtain ⟨q, hq, hqm⟩ := hm
    have := h.stk_lt q hq
    omega
  · intro i a' hi hni
    have hine : i ≠ ir.length := by
      intro he
      exact (hni (ir.length, off) (List.mem_cons_self _ _)) he.symm
    rcases getElem?_snoc_cases hi with ⟨h1, h2⟩ | ⟨h1, h2⟩
    · have hni' : ∀ q ∈ stk, q.1 ≠ i := fun q hq =>
        hni q (List.mem_cons_of_mem _ hq)
      obtain ⟨hlt, hm⟩ := h.open_matched i a' h2 hni'
      exact ⟨hlt, by rw [getElem?_snoc_lt _ (lt_of_getElem?_some hm)]; exact hm⟩
    · exact absurd h1 hine
  · intro i j hj
    obtain ⟨hjl, hj'⟩ := hclose hj
    obtain ⟨h1, h2, h3⟩ := h.close_matched i j hj'
    refine ⟨h1, by rw [getElem?_snoc_lt _ (lt_of_getElem?_some h2)]; exact h2, ?_⟩
    intro q hq
    rcases List.mem_cons.mp hq with hq | hq
    · rw [hq]
      have : i < ir.length := by
        have := lt_of_getElem?_some h2; omega
      omega
    · exact h3 q hq
  · intro i j hj q hq
    obtain ⟨hjl, hj'⟩ := hclose hj
    rcases List.mem_cons.mp hq with hq | hq
    · rw [hq]
      right
      exact hjl
    · exact h.pair_stk i j hj' q hq
  · intro i j i' j' hj hj' hii
    exact h.pair_nest i j i' j' (hclose hj).2 (hclose hj').2 hii

/-- Closing the top bracket normally — backpatching the `Open` at `t` with
the index the `Close` will occupy and appending that `Close` — preserves
the bracket invariant. -/
theorem BracketInv.close_normal {ir : List Instruction} {stk' : List (Nat × Nat)}
    (t off : Nat) (h : BracketInv ir ((t, off) :: stk')) :
    BracketInv ((ir.set t (.Open ir.length)) ++ [.Close t]) stk' := by
  have ht : t < ir.length := h.stk_lt (t, off) (List.mem_cons_self _ _)
  obtain ⟨a0, ha0⟩ := h.stk_open (t, off) (List.mem_cons_self _ _)
  have hsort := h.stk_sorted
  rw [List.map_cons] at hsort
  have hsort' := List.pairwise_cons.mp hsort
  have htop : ∀ q ∈ stk', q.1 < t := by
    intro q hq
    exact hsort'.1 q.1 (List.mem_map.mpr ⟨q, hq, rfl⟩)
  have hNt : ((ir.set t (.Open ir.length)) ++ [.Close t])[t]? =
      some (.Open ir.length) := by
    rw [getElem?_snoc_lt _ (by simpa using ht)]
    exact List.getElem?_set_eq ht
  have hNL : ((ir.set t (.Open ir.length)) ++ [.Close t])[ir.length]? =
      some (.Close t) := by
    have := getElem?_snoc_eq (ir.set t (.Open ir.length)) (Instruction.Close t)
    simpa using this
  have hNlow : ∀ k, k ≠ t → k < ir.length →
      ((ir.set t (.Open ir.length)) ++ [.Close t])[k]? = ir[k]? := by
    intro k hkt hkl
    rw [getElem?_snoc_lt _ (by simpa using hkl)]
    exact List.getElem?_set_ne (fun he => hkt he.symm)
  -- classify Close entries of the new list
  have hCcases : ∀ {i j}, ((ir.set t (.Open ir.length)) ++ [.Close t])[j]? =
      some (Instruction.Close i) →
      (j = ir.length ∧ i = t) ∨
      (j < ir.length ∧ j ≠ t ∧ ir[j]? = some (Instruction.Close i)) := by
    intro i j hj
    rcases getElem?_snoc_cases hj with ⟨h1, h2⟩ | ⟨h1, h2⟩
    · by_cases hjt : j = t
      · subst hjt
        rw [List.getElem?_set_eq ht] at h2
        exact absurd (Option.some_inj.mp h2) (by simp)
      · rw [List.getElem?_set_ne (fun he => hjt he.symm)] at h2
        exact Or.inr ⟨by simpa using h1, hjt, h2⟩
    · left
      refine ⟨by simpa using h1, ?_⟩
      cases h2
      rfl
  -- classify Open entries of the new list
  have hOcases : ∀ {i a}, ((ir.set t (.Open ir.length)) ++ [.Close t])[i]? =
      some (Instruction.Open a) →
      (i = t ∧ a = ir.length) ∨
      (i < ir.length ∧ i ≠ t ∧ ir[i]? = some (Instruction.Open a)) := by
    intro i a hi
    rcases getElem?_snoc_cases hi with ⟨h1, h2⟩ | ⟨h1, h2⟩
    · by_cases hit : i = t
      · subst hit
        rw [List.getElem?_set_eq ht] at h2
        left
        exact ⟨rfl, (Instruction.Open.injEq _ _ ▸ Option.some_inj.mp h2).symm⟩
      · rw [List.getElem?_set_ne (fun he => hit he.symm)] at h2
        exact Or.inr ⟨by simpa using h1, hit, h2⟩
    · exact absurd h2 (by simp)
  -- lift an old matched pair into the new list
  have hlift : ∀ {i j}, ir[j]? = some (Instruction.Close i) →
      ((ir.set t (.Open ir.length)) ++ [.Close t])[j]? =
        some (Instruction.Close i) ∧
      ((ir.set t (.Open ir.length)) ++ [.Close t])[i]? =
        some (Instruction.Open j) := by
    intro i j hj
    obtain ⟨hij, hopen, hstk⟩ := h.close_matched i j hj
    have hjt : j ≠ t := by
      intro he
      rw [he, ha0] at hj
      exact absurd (Option.some_inj.mp hj) (by simp)
    have hit : i ≠ t := fun he => hstk (t, off) (List.mem_cons_self _ _) he.symm
    have hjl : j < ir.length := lt_of_getElem?_some hj
    constructor
    · rw [hNlow j hjt hjl]; exact hj
    · rw [hNlow i hit (by omega)]; exact hopen
  refine ⟨?_, ?_, ?_, ?_, ?_, ?_, ?_⟩
  · intro q hq
    have := htop q hq
    simp only [List.length_append, List.length_set, List.length_cons,
      List.length_nil]
    omega
  · intro q hq
    obtain ⟨a', ha'⟩ := h.stk_open q (List.mem_cons_of_mem _ hq)
    have hqt : q.1 ≠ t := by have := htop q hq; omega
    exact ⟨a', by rw [hNlow q.1 hqt (lt_of_getElem?_some ha')]; exact ha'⟩
  · exact hsort'.2
  · intro i a hi hni
    rcases hOcases hi with ⟨hit, hal⟩ | ⟨hil, hit, hi'⟩
    · subst hit
      subst hal
      exact ⟨ht, hNL⟩
    · have hni' : ∀ q ∈ (t, off) :: stk', q.1 ≠ i := by
        intro q hq
        rcases List.mem_cons.mp hq with hq | hq
        · rw [hq]; exact fun he => hit he.symm
        · exact hni q hq
      obtain ⟨hia, hm⟩ := h.open_matched i a hi' hni'
      have hat : a ≠ t := by
        intro he
        rw [he, ha0] at hm
        exact absurd (Option.some_inj.mp hm) (by simp)
      exact ⟨hia, by rw [hNlow a hat (lt_of_getElem?_some hm)]; exact hm⟩
  · intro i j hj
    rcases hCcases hj with ⟨hjL, hit⟩ | ⟨hjl, hjt, hj'⟩
    · subst hjL
      subst hit
      refine ⟨ht, hNt, ?_⟩
      intro q hq
      have := htop q hq
      omega
    · obtain ⟨hij, hopen, hstk⟩ := h.close_matched i j hj'
      exact ⟨hij, (hlift hj').2, fun q hq => hstk q (List.mem_cons_of_mem _ hq)⟩
  · intro i j hj q hq
    rcases hCcases hj with ⟨hjL, hit⟩ | ⟨hjl, hjt, hj'⟩
    · left
      have := htop q hq
      omega
    · exact h.pair_stk i j hj' q (List.mem_cons_of_mem _ hq)
  · intro i j i' j' hj hj' hii
    rcases hCcases hj with ⟨hjL, hit⟩ | ⟨hjl, hjt, hjo⟩ <;>
      rcases hCcases hj' with ⟨hjL', hit'⟩ | ⟨hjl', hjt', hjo'⟩
    · omega
    · left
      omega
    · rcases h.pair_stk i j hjo (t, off) (List.mem_cons_self _ _) with hlt | hlt
      · omega
      · right
        omega
    · exact h.pair_nest i j i' j' hjo hjo' hii

/-- Closing the top bracket through the peephole — truncating the IR at the
`Open` index and appending a `Zero` — preserves the bracket invariant. -/
theorem BracketInv.close_peephole {ir : List Instruction}
    {stk' : List (Nat × Nat)} (t off : Nat)
    (h : BracketInv ir ((t, off) :: stk'))
    (hdrop : ir.drop (t + 1) = [.Sub 1]) :
    BracketInv (ir.take t ++ [.Zero]) stk' := by
  have ht : t < ir.length := h.stk_lt (t, off) (List.mem_cons_self _ _)
  obtain ⟨a0, ha0⟩ := h.stk_open (t, off) (List.mem_cons_self _ _)
  have hlen : ir.length = t + 2 := by
    have := congrArg List.length hdrop
    simp only [List.length_drop, List.length_cons, List.length_nil] at this
    omega
  have hsub : ir[t + 1]? = some (.Sub 1) := by
    have := List.getElem?_drop ir (t + 1) 0
    rw [hdrop] at this
    simpa using this.symm
  have hsort := h.stk_sorted
  rw [List.map_cons] at hsort
  have hsort' := List.pairwise_cons.mp hsort
  have htop : ∀ q ∈ stk', q.1 < t := by
    intro q hq
    exact hsort'.1 q.1 (List.mem_map.mpr ⟨q, hq, rfl⟩)
  have htake : (ir.take t).length = t := by
    simp [List.length_take]
    omega
  have hNlow : ∀ k, k < t → (ir.take t ++ [Instruction.Zero])[k]? = ir[k]? := by
    intro k hk
    rw [getElem?_snoc_lt _ (by omega : k < (ir.take t).length)]
    exact List.getElem?_take_of_lt hk
  have hpair_lt : ∀ {i j}, ir[j]? = some (Instruction.Close i) → j < t ∧ i < j := by
    intro i j hj
    obtain ⟨hij, hopen, hstk⟩ := h.close_matched i j hj
    have hjl : j < ir.length := lt_of_getElem?_some hj
    have hjt : j ≠ t := by
      intro he
      rw [he, ha0] at hj
      exact absurd (Option.some_inj.mp hj) (by simp)
    have hjt1 : j ≠ t + 1 := by
      intro he
      rw [he, hsub] at hj
      exact absurd (Option.some_inj.mp hj) (by simp)
    exact ⟨by omega, hij⟩
  have hOcases : ∀ {i a}, (ir.take t ++ [Instruction.Zero])[i]? =
      some (Instruction.Open a) →
      i < t ∧ ir[i]? = some (Instruction.Open a) := by
    intro i a hi
    rcases getElem?_snoc_cases hi with ⟨h1, h2⟩ | ⟨h1, h2⟩
    · have hil : i < t := by omega
      refine ⟨hil, ?_⟩
      rwa [List.getElem?_take_of_lt hil] at h2
    · exact absurd h2 (by simp)
  have hCcases : ∀ {i j}, (ir.take t ++ [Instruction.Zero])[j]? =
      some (Instruction.Close i) →
      j < t ∧ ir[j]? = some (Instruction.Close i) := by
    intro i j hj
    rcases getElem?_snoc_cases hj with ⟨h1, h2⟩ | ⟨h1, h2⟩
    · have hjl : j < t := by omega
      refine ⟨hjl, ?_⟩
      rwa [List.getElem?_take_of_lt hjl] at h2
    · exact absurd h2 (by simp)
  refine ⟨?_, ?_, hsort'.2, ?_, ?_, ?_, ?_⟩
  · intro q hq
    have := htop q hq
    simp only [List.length_append, List.length_cons, List.length_nil]
    omega
  · intro q hq
    obtain ⟨a', ha'⟩ := h.stk_open q (List.mem_cons_of_mem _ hq)
    exact ⟨a', by rw [hNlow q.1 (htop q hq)]; exact ha'⟩
  · intro i a hi hni
    obtain ⟨hil, hi'⟩ := hOcases hi
    have hni' : ∀ q ∈ (t, off) :: stk', q.1 ≠ i := by
      intro q hq
      rcases List.mem_cons.mp hq with hq | hq
      · rw [hq]; omega
      · exact hni q hq
    obtain ⟨hia, hm⟩ := h.open_matched i a hi' hni'
    obtain ⟨hat, -⟩ := hpair_lt hm
    exact ⟨hia, by rw [hNlow a hat]; exact hm⟩
  · intro i j hj
    obtain ⟨hjl, hj'⟩ := hCcases hj
    obtain ⟨hij, hopen, hstk⟩ := h.close_matched i j hj'
    exact ⟨hij, by rw [hNlow i (by omega)]; exact hopen,
      fun q hq => hstk q (List.mem_cons_of_mem _ hq)⟩
  · intro i j hj q hq
    exact h.pair_stk i j (hCcases hj).2 q (List.mem_cons_of_mem _ hq)
  · intro i j i' j' hj hj' hii
    exact h.pair_nest i j i' j' (hCcases hj).2 (hCcases hj').2 hii

/-- Processing one grouped token preserves the bracket invariant. -/
theorem applyGroup_inv (src : List Char) (ins : Instruction) (b e : Nat)
    (st st' : PState) (hinv : BracketInv st.ir st.brackets)
    (happ : applyGroup src (ins, b, e) st = .ok st') :
    BracketInv st'.ir st'.brackets := by
  by_cases hopen : ins.isOpen
  · obtain ⟨a, ha⟩ := isOpen_iff.mp hopen
    subst ha
    simp only [applyGroup, hopen, if_true] at happ
    obtain rfl := (Except.ok.injEq _ _).mp happ
    exact hinv.push_open b a
  · by_cases hclose : ins.isClose
    · rcases hbr : st.brackets with _ | ⟨⟨t, off⟩, rest⟩
      · simp only [applyGroup, hopen, hclose, hbr, if_false, if_true] at happ
        exact Except.noConfusion happ
      · rcases hslice : Instruction.tryFromSlice (st.ir.drop (t + 1)) with
          _ | meta
        · simp only [applyGroup, hopen, hclose, hbr, hslice, if_false,
            if_true] at happ
          obtain rfl := (Except.ok.injEq _ _).mp happ
          exact BracketInv.close_normal t off (hbr ▸ hinv)
        · obtain ⟨hmeta, hdrop⟩ := tryFromSlice_eq_some hslice
          simp only [applyGroup, hopen, hclose, hbr, hslice, if_false,
            if_true] at happ
          obtain rfl := (Except.ok.injEq _ _).mp happ
          show BracketInv (st.ir.take t ++ [meta]) rest
          rw [hmeta]
          exact BracketInv.close_peephole t off (hbr ▸ hinv) hdrop
    · have hopen' : ins.isOpen = false := eq_false_of_ne_true hopen
      have hclose' : ins.isClose = false := eq_false_of_ne_true hclose
      by_cases hnop : ins.isNop
      · simp only [applyGroup, hopen, hclose, hnop, if_false, if_true] at happ
        obtain rfl := (Except.ok.injEq _ _).mp happ
        exact hinv.push_plain ins hopen' hclose'
      · simp only [applyGroup, hopen, hclose, hnop, if_false] at happ
        obtain rfl := (Except.ok.injEq _ _).mp happ
        exact hinv.push_plain ins hopen' hclose'

/-- Any `ok` result of the assembler loop, started from a state satisfying
the bracket invariant, satisfies the invariant with an empty stack. -/
theorem assemble_ok_inv (src : List Char) :
    ∀ (gs : List (Instruction × Nat × Nat)) (st : PState),
    BracketInv st.ir st.brackets →
    ∀ ir ws, assemble src gs st = .ok (ir, ws) → BracketInv ir [] := by
  intro gs
  induction gs with
  | nil =>
    intro st hinv ir ws hok
    rcases hbr : st.brackets with _ | ⟨q, rest⟩
    · simp only [assemble, hbr] at hok
      obtain ⟨h1, h2⟩ := Prod.mk.injEq _ _ _ _ ▸ (Except.ok.injEq _ _).mp hok
      rw [← h1]
      exact hbr ▸ hinv
    · simp only [assemble, hbr] at hok
      exact Except.noConfusion hok
  | cons g gs ih =>
    intro st hinv ir ws hok
    obtain ⟨ins, b, e⟩ := g
    rcases happ : applyGroup src (ins, b, e) st with e' | st'
    · simp only [assemble, happ] at hok
      exact Except.noConfusion hok
    · simp only [assemble, happ] at hok
      exact ih st' (applyGroup_inv src ins b e st st' hinv happ) ir ws hok

/-- Claim C2: after every successful parse, every `Open` at IR index `i`
carries the index `j` of a matching `Close` with `i < j` and the `Close` at
`j` carries `i` back; conversely every `Close` points back to an `Open`
pointing at it; and the matched pairs are properly nested (no two pairs
cross), so no unmatched `Open` or `Close` survives. -/
theorem c2_bracket_pairing (src : List Char) (ir : List Instruction)
    (ws : List Warning) (h : parseChars src = .ok (ir, ws)) :
    (∀ i a : Nat, ir[i]? = some (Instruction.Open a) →
      i < a ∧ ir[a]? = some (Instruction.Close i))
  ∧ (∀ i j : Nat, ir[j]? = some (Instruction.Close i) →
      i < j ∧ ir[i]? = some (Instruction.Open j))
  ∧ (∀ i j i' j' : Nat, ir[j]? = some (Instruction.Close i) →
      ir[j']? = some (Instruction.Close i') → i < i' → j' < j ∨ j < i') := by
  have hinit : BracketInv (⟨[], [], []⟩ : PState).ir
      (⟨[], [], []⟩ : PState).brackets := by
    constructor <;> simp
  have hinv : BracketInv ir [] :=
    assemble_ok_inv src (groups (charIndicesFrom 0 src)) ⟨[], [], []⟩ hinit
      ir ws h
  refine ⟨?_, ?_, ?_⟩
  · intro i a hi
    exact hinv.open_matched i a hi (by simp)
  · intro i j hj
    obtain ⟨h1, h2, -⟩ := hinv.close_matched i j hj
    exact ⟨h1, h2⟩
  · exact hinv.pair_nest

/-- Witness for C2 on the source `[[-]]`. -/
theorem c2_bracket_pairing_witness :
    parseChars ['[', '[', '-', ']', ']'] =
      .ok ([.Open 2, .Zero, .Close 0], [])
  ∧ ((0 : Nat) < 2
      ∧ [Instruction.Open 2, .Zero, .Close 0][2]? = some (.Close 0)) := by
  have hp : parseChars ['[', '[', '-', ']', ']'] =
      .ok ([.Open 2, .Zero, .Close 0], []) := by decide
  exact ⟨hp,
    (c2_bracket_pairing ['[', '[', '-', ']', ']'] _ [] hp).1 0 2 (by decide)⟩

/-- `combine` has no arm accepting an `Open` on the left. -/
theorem combine_open_left (y : Instruction) (a : Nat) :
    (Instruction.Open a).combine y = none := by
  cases y <;> rfl

/-- `combine` has no arm accepting a `Close` on the left. -/
theorem combine_close_left (y : Instruction) (a : Nat) :
    (Instruction.Close a).combine y = none := by
  cases y <;> rfl

/-- `combine` has no arm accepting an `Open` on the right. -/
theorem combine_open_right (x : Instruction) (a : Nat) :
    x.combine (.Open a) = none := by
  cases x <;> rfl

/-- `combine` has no arm accepting a `Close` on the right. -/
theorem combine_close_right (x : Instruction) (a : Nat) :
    x.combine (.Close a) = none := by
  cases x <;> rfl

/-- A successful `combine` never produces a bracket. -/
theorem combine_not_bracket {x y z : Instruction} (h : x.combine y = some z) :
    z.isOpen = false ∧ z.isClose = false := by
  cases x <;> cases y <;>
    simp only [Instruction.combine, Option.map_some', Option.map_none'] at h <;>
    first
      | exact Option.noConfusion h
      | (obtain rfl := Option.some_inj.mp h
         constructor <;> (repeat' split) <;> rfl)

/-- Classifier output by bracket status of the character. -/
theorem tryFromChar_cases {c : Char} {ins : Instruction}
    (h : Instruction.tryFromChar c = some ins) :
    (c = '[' ∧ ins = .Open 1) ∨ (c = ']' ∧ ins = .Close 1) ∨
    ((c = '[' → False) ∧ (c = ']' → False) ∧
      ins.isOpen = false ∧ ins.isClose = false) := by
  unfold Instruction.tryFromChar at h
  split_ifs at h with h1 h2 h3 h4 h5 h6 h7 h8
  · obtain rfl := Option.some_inj.mp h
    subst h1
    exact Or.inr (Or.inr ⟨by decide, by decide, rfl, rfl⟩)
  · obtain rfl := Option.some_inj.mp h
    subst h2
    exact Or.inr (Or.inr ⟨by decide, by decide, rfl, rfl⟩)
  · obtain rfl := Option.some_inj.mp h
    subst h3
    exact Or.inr (Or.inr ⟨by decide, by decide, rfl, rfl⟩)
  · obtain rfl := Option.some_inj.mp h
    subst h4
    exact Or.inr (Or.inr ⟨by decide, by decide, rfl, rfl⟩)
  · obtain rfl := Option.some_inj.mp h
    subst h5
    exact Or.inr (Or.inr ⟨by decide, by decide, rfl, rfl⟩)
  · obtain rfl := Option.some_inj.mp h
    subst h6
    exact Or.inr (Or.inr ⟨by decide, by decide, rfl, rfl⟩)
  · obtain rfl := Option.some_inj.mp h
    subst h7
    exact Or.inl ⟨rfl, rfl⟩
  · obtain rfl := Option.some_inj.mp h
    subst h8
    exact Or.inr (Or.inl ⟨rfl, rfl⟩)

/-- Unfolding `bracketsOfGroups` over a cons. -/
theorem bracketsOfGroups_cons (g : Instruction × Nat × Nat)
    (gs : List (Instruction × Nat × Nat)) :
    bracketsOfGroups (g :: gs) =
      (groupBracket g).toList ++ bracketsOfGroups gs := by
  unfold bracketsOfGroups
  rw [List.filterMap_cons]
  cases groupBracket g <;> simp

/-- The brackets of the emitted groups are exactly the in-progress group's
bracket followed by the brackets of the remaining character stream. -/
theorem groupsGo_brackets :
    ∀ (l : List (Nat × Char)) (cur : Option (Instruction × Nat × Nat)),
    bracketsOfGroups (groupsGo l cur) = curBrackets cur ++ bracketsOfStream l := by
  intro l
  induction l with
  | nil =>
    intro cur
    cases cur with
    | none => rfl
    | some g =>
      show bracketsOfGroups [g] = curBrackets (some g) ++ []
      rw [bracketsOfGroups_cons]
      simp [curBrackets, bracketsOfGroups, bracketsOfStream]
  | cons p rest ih =>
    intro cur
    obtain ⟨i, c⟩ := p
    have hstream : ((c = '[' → False) ∧ (c = ']' → False)) →
        bracketsOfStream ((i, c) :: rest) = bracketsOfStream rest := by
      intro hne
      unfold bracketsOfStream
      rw [List.filter_cons]
      have : ¬ (c = '[' ∨ c = ']') := by
        rintro (hc | hc)
        · exact hne.1 hc
        · exact hne.2 hc
      simp [this]
    have hnone_nb : Instruction.tryFromChar c = none →
        ((c = '[' → False) ∧ (c = ']' → False)) := by
      intro h
      constructor <;> rintro rfl <;> exact absurd h (by decide)
    have hplain : ∀ ins : Instruction, ins.isOpen = false →
        ins.isClose = false → ∀ b e : Nat,
        curBrackets (some (ins, b, e)) = [] := by
      intro ins h1 h2 b e
      simp [curBrackets, groupBracket, h1, h2]
    have hfits : ∀ ins : Instruction, Instruction.tryFromChar c = some ins →
        curBrackets (some (ins, i, i)) ++ bracketsOfStream rest =
          bracketsOfStream ((i, c) :: rest) := by
      intro ins hc
      rcases tryFromChar_cases hc with ⟨hc1, hc2⟩ | ⟨hc1, hc2⟩ | ⟨hc1, hc2, hc3, hc4⟩
      · subst hc1
        subst hc2
        unfold bracketsOfStream
        rw [List.filter_cons]
        simp [curBrackets, groupBracket, Instruction.isOpen]
      · subst hc1
        subst hc2
        unfold bracketsOfStream
        rw [List.filter_cons]
        simp [curBrackets, groupBracket, Instruction.isOpen, Instruction.isClose]
      · rw [hplain ins hc3 hc4, hstream ⟨hc1, hc2⟩]
        rfl
    cases cur with
    | none =>
      rcases hc : Instruction.tryFromChar c with _ | ins
      · show bracketsOfGroups (groupsGo ((i, c) :: rest) none) = _
        simp only [groupsGo, hc]
        rw [ih none, hstream (hnone_nb hc)]
      · show bracketsOfGroups (groupsGo ((i, c) :: rest) none) = _
        simp only [groupsGo, hc]
        rw [ih (some (ins, i, i)), hfits ins hc]
        rfl
    | some g =>
      obtain ⟨ins0, b, e⟩ := g
      rcases hc : Instruction.tryFromChar c with _ | next
      · show bracketsOfGroups (groupsGo ((i, c) :: rest) (some (ins0, b, e))) = _
        simp only [groupsGo, hc]
        rw [bracketsOfGroups_cons, ih none, hstream (hnone_nb hc)]
        simp [curBrackets]
      · rcases hb : ins0.combine next with _ | fused
        · show bracketsOfGroups
              (groupsGo ((i, c) :: rest) (some (ins0, b, e))) = _
          simp only [groupsGo, hc, hb]
          rw [bracketsOfGroups_cons, ih (some (next, i, i)), hfits next hc]
          rfl
        · show bracketsOfGroups
              (groupsGo ((i, c) :: rest) (some (ins0, b, e))) = _
          simp only [groupsGo, hc, hb]
          rw [ih (some (fused, b, i))]
          obtain ⟨hf1, hf2⟩ := combine_not_bracket hb
          rw [hplain fused hf1 hf2]
          have hins0_open : ins0.isOpen = false := by
            cases hio : ins0.isOpen
            · rfl
            · obtain ⟨a, ha⟩ := isOpen_iff.mp hio
              rw [ha, combine_open_left] at hb
              exact Option.noConfusion hb
          have hins0_close : ins0.isClose = false := by
            cases hio : ins0.isClose
            · rfl
            · obtain ⟨a, ha⟩ := isClose_iff.mp hio
              rw [ha, combine_close_left] at hb
              exact Option.noConfusion hb
          rw [hplain ins0 hins0_open hins0_close]
          have hcnb : (c = '[' → False) ∧ (c = ']' → False) := by
            constructor <;> rintro rfl
            · rw [(by decide : Instruction.tryFromChar '[' =
                some (.Open 1))] at hc
              obtain rfl := Option.some_inj.mp hc.symm
              rw [combine_open_right] at hb
              exact Option.noConfusion hb
            · rw [(by decide : Instruction.tryFromChar ']' =
                some (.Close 1))] at hc
              obtain rfl := Option.some_inj.mp hc.symm
              rw [combine_close_right] at hb
              exact Option.noConfusion hb
          rw [hstream hcnb]

/-- The assembler's outcome is decided by plain bracket matching over the
grouped tokens: balanced brackets give success with exactly the state's
warnings plus one `NOP` warning per `NOP` group; a nonempty final stack
gives the unbalanced-`[` error at the offset of its most recently pushed
entry. -/
theorem assemble_scan (src : List Char) :
    ∀ (gs : List (Instruction × Nat × Nat)) (st : PState),
    (scanB (bracketsOfGroups gs) (st.brackets.map Prod.snd) = some [] →
      ∃ ir, assemble src gs st = .ok (ir, st.warnings ++ nopOf src gs))
  ∧ (∀ o rest, scanB (bracketsOfGroups gs) (st.brackets.map Prod.snd) =
      some (o :: rest) →
      assemble src gs st = .error (.mismatchedBracket o '[')) := by
  intro gs
  induction gs with
  | nil =>
    intro st
    constructor
    · intro hscan
      have hσ : st.brackets.map Prod.snd = [] := by
        simpa [bracketsOfGroups, scanB] using hscan
      have hbr : st.brackets = [] := by
        cases hb2 : st.brackets
        · rfl
        · rw [hb2] at hσ; simp at hσ
      refine ⟨st.ir, ?_⟩
      simp [assemble, hbr, nopOf]
    · intro o rest hscan
      have hσ : st.brackets.map Prod.snd = o :: rest := by
        simpa [bracketsOfGroups, scanB] using hscan
      rcases hbr : st.brackets with _ | ⟨q, bs⟩
      · rw [hbr] at hσ; simp at hσ
      · rw [hbr] at hσ
        simp only [List.map_cons, List.cons.injEq] at hσ
        simp only [assemble, hbr]
        rw [hσ.1]
  | cons g gs ih =>
    intro st
    obtain ⟨ins, b, e⟩ := g
    by_cases hopen : ins.isOpen
    · obtain ⟨a, ha⟩ := isOpen_iff.mp hopen
      subst ha
      have hbg : bracketsOfGroups ((Instruction.Open a, b, e) :: gs) =
          (b, '[') :: bracketsOfGroups gs := by
        rw [bracketsOfGroups_cons]
        rfl
      have hscan_push : ∀ σ : List Nat,
          scanB ((b, '[') :: bracketsOfGroups gs) σ =
            scanB (bracketsOfGroups gs) (b :: σ) := by
        intro σ
        simp [scanB]
      set st1 : PState :=
        ⟨st.ir ++ [.Open a], (st.ir.length, b) :: st.brackets, st.warnings⟩
        with hst1
      have happ : applyGroup src (.Open a, b, e) st = .ok st1 := rfl
      have hnop : nopOf src ((Instruction.Open a, b, e) :: gs) =
          nopOf src gs := by
        simp [nopOf, List.filterMap_cons, Instruction.isNop]
      constructor
      · intro hscan
        rw [hbg, hscan_push] at hscan
        obtain ⟨ir, hok⟩ := (ih st1).1 (by
          rw [hst1]
          simpa using hscan)
        refine ⟨ir, ?_⟩
        simp only [assemble, happ]
        rw [hnop]
        exact hok
      · intro o rest hscan
        rw [hbg, hscan_push] at hscan
        have := (ih st1).2 o rest (by
          rw [hst1]
          simpa using hscan)
        simp only [assemble, happ]
        exact this
    · by_cases hclose : ins.isClose
      · obtain ⟨a, ha⟩ := isClose_iff.mp hclose
        subst ha
        have hbg : bracketsOfGroups ((Instruction.Close a, b, e) :: gs) =
            (b, ']') :: bracketsOfGroups gs := by
          rw [bracketsOfGroups_cons]
          rfl
        have hscan_cons : ∀ (o : Nat) (σ2 : List Nat),
            scanB ((b, ']') :: bracketsOfGroups gs) (o :: σ2) =
              scanB (bracketsOfGroups gs) σ2 := by
          intro o σ2
          simp [scanB]
        have hscan_nil : scanB ((b, ']') :: bracketsOfGroups gs) [] = none := by
          simp [scanB]
        have hnop : nopOf src ((Instruction.Close a, b, e) :: gs) =
            nopOf src gs := by
          simp [nopOf, List.filterMap_cons, Instruction.isNop]
        rcases hbr : st.brackets with _ | ⟨⟨t, off⟩, bs⟩
        · constructor
          · intro hscan
            rw [hbg] at hscan
            simp only [List.map_nil] at hscan
            rw [hscan_nil] at hscan
            exact Option.noConfusion hscan
          · intro o rest hscan
            rw [hbg] at hscan
            simp only [List.map_nil] at hscan
            rw [hscan_nil] at hscan
            exact Option.noConfusion hscan
        · rcases hslice : Instruction.tryFromSlice (st.ir.drop (t + 1)) with
            _ | meta
          · set st1 : PState :=
              ⟨(st.ir.set t (.Open st.ir.length)) ++ [.Close t], bs,
                st.warnings⟩ with hst1
            have happ : applyGroup src (.Close a, b, e) st = .ok st1 := by
              simp only [applyGroup, Instruction.isOpen, Instruction.isClose,
                hbr, hslice, hst1]
              rfl
            constructor
            · intro hscan
              rw [hbg] at hscan
              simp only [List.map_cons] at hscan
              rw [hscan_cons] at hscan
              obtain ⟨ir, hok⟩ := (ih st1).1 hscan
              refine ⟨ir, ?_⟩
              simp only [assemble, happ]
              rw [hnop]
              exact hok
            · intro o rest hscan
              rw [hbg] at hscan
              simp only [List.map_cons] at hscan
              rw [hscan_cons] at hscan
              have := (ih st1).2 o rest hscan
              simp only [assemble, happ]
              exact this
          · set st1 : PState := ⟨st.ir.take t ++ [meta], bs, st.warnings⟩
              with hst1
            have happ : applyGroup src (.Close a, b, e) st = .ok st1 := by
              simp only [applyGroup, Instruction.isOpen, Instruction.isClose,
                hbr, hslice, hst1]
              rfl
            constructor
            · intro hscan
              rw [hbg] at hscan
              simp only [List.map_cons] at hscan
              rw [hscan_cons] at hscan
              obtain ⟨ir, hok⟩ := (ih st1).1 hscan
              refine ⟨ir, ?_⟩
              simp only [assemble, happ]
              rw [hnop]
              exact hok
            · intro o rest hscan
              rw [hbg] at hscan
              simp only [List.map_cons] at hscan
              rw [hscan_cons] at hscan
              have := (ih st1).2 o rest hscan
              simp only [assemble, happ]
              exact this
      · have hopen' : ins.isOpen = false := eq_false_of_ne_true hopen
        have hclose' : ins.isClose = false := eq_false_of_ne_true hclose
        have hbg : bracketsOfGroups ((ins, b, e) :: gs) =
            bracketsOfGroups gs := by
          rw [bracketsOfGroups_cons]
          simp [groupBracket, hopen', hclose']
        by_cases hnop : ins.isNop
        · set st1 : PState :=
            ⟨st.ir ++ [ins], st.brackets,
              st.warnings ++ [⟨b, e, sliceIncl src b e⟩]⟩ with hst1
          have happ : applyGroup src (ins, b, e) st = .ok st1 := by
            simp only [applyGroup, hopen', hclose', hnop, hst1]
            rfl
          have hnopOf : nopOf src ((ins, b, e) :: gs) =
              ⟨b, e, sliceIncl src b e⟩ :: nopOf src gs := by
            simp [nopOf, List.filterMap_cons, hnop]
          constructor
          · intro hscan
            rw [hbg] at hscan
            obtain ⟨ir, hok⟩ := (ih st1).1 hscan
            refine ⟨ir, ?_⟩
            simp only [assemble, happ]
            rw [hnopOf, hok, hst1]
            simp
          · intro o rest hscan
            rw [hbg] at hscan
            have := (ih st1).2 o rest hscan
            simp only [assemble, happ]
            exact this
        · have hnop' : ins.isNop = false := eq_false_of_ne_true hnop
          set st1 : PState :=
            ⟨st.ir ++ [ins], st.brackets, st.warnings⟩ with hst1
          have happ : applyGroup src (ins, b, e) st = .ok st1 := by
            simp only [applyGroup, hopen', hclose', hnop', hst1]
            rfl
          have hnopOf : nopOf src ((ins, b, e) :: gs) = nopOf src gs := by
            simp [nopOf, List.filterMap_cons, hnop']
          constructor
          · intro hscan
            rw [hbg] at hscan
            obtain ⟨ir, hok⟩ := (ih st1).1 hscan
            refine ⟨ir, ?_⟩
            simp only [assemble, happ]
            rw [hnopOf]
            exact hok
          · intro o rest hscan
            rw [hbg] at hscan
            have := (ih st1).2 o rest hscan
            simp only [assemble, happ]
            exact this

/-- The brackets of the grouped-token stream are the brackets of the
character stream. -/
theorem groups_brackets (l : List (Nat × Char)) :
    bracketsOfGroups (groups l) = bracketsOfStream l := by
  have := groupsGo_brackets l none
  simpa [groups, curBrackets] using this

/-- Claim C7 (amended): for every source whose bracket characters scan to a
nonempty stack of unmatched `[` offsets (so no unmatched `]` is hit first),
the parse fails with an unbalanced-`[` error carrying the byte offset of
the top-most — most recently pushed, i.e. last-opened — unmatched `[`
(`brackets.pop()` pops the top of the stack, not its bottom). -/
theorem c7_unbalanced_open (src : List Char) (o : Nat) (rest : List Nat)
    (h : scanB (bracketsOfStream (charIndicesFrom 0 src)) [] =
      some (o :: rest)) :
    parseChars src = .error (.mismatchedBracket o '[') := by
  refine (assemble_scan src (groups (charIndicesFrom 0 src)) ⟨[], [], []⟩).2
    o rest ?_
  rw [groups_brackets]
  simpa using h

/-- Witness for C7 on the source `[+[`: both `[` are unmatched and the
error carries offset 2, the most recently opened one. -/
theorem c7_unbalanced_open_witness :
    scanB (bracketsOfStream (charIndicesFrom 0 ['[', '+', '['])) [] =
      some (2 :: [0])
  ∧ parseChars ['[', '+', '['] = .error (.mismatchedBracket 2 '[') := by
  exact ⟨by decide, c7_unbalanced_open ['[', '+', '['] 2 [0] (by decide)⟩

/-- Claim C8: for every source with balanced brackets the parse succeeds —
warnings never abort it — and yields a runnable IR together with exactly
one *no-operation* warning per fused run whose net effect is zero, in
source order, each carrying that run's begin and end byte offsets and the
source text they cover. -/
theorem c8_warnings (src : List Char)
    (h : scanB (bracketsOfStream (charIndicesFrom 0 src)) [] = some []) :
    ∃ ir, parseChars src = .ok (ir, nopWarningsOf src) := by
  obtain ⟨ir, hok⟩ :=
    (assemble_scan src (groups (charIndicesFrom 0 src)) ⟨[], [], []⟩).1
      (by rw [groups_brackets]; simpa using h)
  exact ⟨ir, by simpa [nopWarningsOf] using hok⟩

/-- Witness for C8 on the source `+-.`: the canceling run `+-` produces
exactly one warning covering offsets 0-1. -/
theorem c8_warnings_witness :
    scanB (bracketsOfStream (charIndicesFrom 0 ['+', '-', '.'])) [] = some []
  ∧ ∃ ir, parseChars ['+', '-', '.'] =
      .ok (ir, nopWarningsOf ['+', '-', '.']) := by
  exact ⟨by decide, c8_warnings ['+', '-', '.'] (by decide)⟩

/-- Fusing a run of `k` left-arrows followed by a period onto an
in-progress `Left a` group yields `Left (a + k)` and then a single
`Output 1` group. -/
theorem groupsGo_left_run : ∀ (k n a b e : Nat),
    ∃ e2, groupsGo (charIndicesFrom n (List.replicate k '<' ++ ['.']))
      (some (.Left a, b, e)) =
      [(.Left (a + k), b, e2), (.Output 1, n + k, n + k)] := by
  intro k
  induction k with
  | zero =>
    intro n a b e
    exact ⟨e, rfl⟩
  | succ k ih =>
    intro n a b e
    rw [List.replicate_succ, List.cons_append]
    show ∃ e2, groupsGo ((n, '<') ::
      charIndicesFrom (n + '<'.utf8Size) (List.replicate k '<' ++ ['.']))
      (some (.Left a, b, e)) = _
    have hstep : groupsGo ((n, '<') ::
        charIndicesFrom (n + '<'.utf8Size) (List.replicate k '<' ++ ['.']))
        (some (.Left a, b, e)) =
        groupsGo (charIndicesFrom (n + 1) (List.replicate k '<' ++ ['.']))
          (some (.Left (a + 1), b, n)) := rfl
    rw [hstep]
    obtain ⟨e2, he2⟩ := ih (n + 1) (a + 1) b n
    refine ⟨e2, ?_⟩
    rw [he2]
    have h1 : a + 1 + k = a + (k + 1) := by omega
    have h2 : n + 1 + k = n + (k + 1) := by omega
    rw [h1, h2]

/-- Starting a group at an instruction character. -/
theorem groups_cons_start (n : Nat) (c : Char) (cs : List Char)
    (ins : Instruction) (hc : Instruction.tryFromChar c = some ins) :
    groups (charIndicesFrom n (c :: cs)) =
      groupsGo (charIndicesFrom (n + c.utf8Size) cs) (some (ins, n, n)) := by
  simp only [groups, charIndicesFrom, groupsGo, hc]

/-- The fused parse of `c1Src`: the whole run of 30001 `<` becomes a single
`Left 30001` — no mod-30000 normalization is applied — followed by
`Output 1`. -/
theorem parse_c1Src :
    ∃ e2, parseChars c1Src = .ok ([.Left 30001, .Output 1], []) ∧
      groups (charIndicesFrom 0 c1Src) =
        [(.Left 30001, 0, e2), (.Output 1, 30001, 30001)] := by
  have hsrc : c1Src = '<' :: (List.replicate 30000 '<' ++ ['.']) := by
    show List.replicate 30001 '<' ++ ['.'] = _
    rw [show (30001 : Nat) = 30000 + 1 from rfl, List.replicate_succ,
      List.cons_append]
  obtain ⟨e2, he2⟩ := groupsGo_left_run 30000 1 1 0 0
  have hg : groups (charIndicesFrom 0 c1Src) =
      [(.Left 30001, 0, e2), (.Output 1, 30001, 30001)] := by
    rw [hsrc, groups_cons_start 0 '<' _ (.Left 1) (by decide),
      show (0 : Nat) + '<'.utf8Size = 1 from by decide, he2]
  refine ⟨e2, ?_, hg⟩
  show assemble c1Src (groups (charIndicesFrom 0 c1Src)) ⟨[], [], []⟩ = _
  rw [hg]
  rfl

/-- Unfolding one successful iteration of the baseline loop. -/
theorem nrun_step (fuel : Nat) (prog : List NInstruction) (s s' : VMState)
    (i : NInstruction) (hi : prog[s.pc]? = some i)
    (hs : nstep prog i s = .ok s') :
    nrun (fuel + 1) prog s = nrun fuel prog s' := by
  simp [nrun, hi, hs]

/-- The baseline loop halts when the program counter is past the end. -/
theorem nrun_done (fuel : Nat) (prog : List NInstruction) (s : VMState)
    (h : prog[s.pc]? = none) : nrun (fuel + 1) prog s = .done s := by
  simp [nrun, h]

/-- Executing `k` consecutive baseline `Left`s moves the head back by `k`
modulo 30000 (as `+29999·k`), advancing the program counter by `k`. -/
theorem nrun_lefts : ∀ (k m : Nat) (prog : List NInstruction) (s : VMState),
    (∀ j, j < k → prog[s.pc + j]? = some .Left) → s.head < 30000 →
    nrun (k + m) prog s =
      nrun m prog
        { s with pc := s.pc + k, head := (s.head + 29999 * k) % 30000 } := by
  intro k
  induction k with
  | zero =>
    intro m prog s _ hh
    obtain ⟨pc0, head0, tape0, inp0, outp0⟩ := s
    simp only at hh
    have h1 : (head0 + 29999 * 0) % 30000 = head0 := by omega
    rw [show (0 + m : Nat) = m from by omega]
    show nrun m prog _ = nrun m prog _
    rw [show (⟨pc0 + 0, (head0 + 29999 * 0) % 30000, tape0, inp0, outp0⟩ :
        VMState) = ⟨pc0, head0, tape0, inp0, outp0⟩ from by rw [h1, Nat.add_zero]]
  | succ k ih =>
    intro m prog s hfetch hh
    obtain ⟨pc0, head0, tape0, inp0, outp0⟩ := s
    simp only at hfetch hh ⊢
    have hfetch0 : prog[pc0]? = some NInstruction.Left := by
      have := hfetch 0 (by omega)
      simpa using this
    have hstep : nstep prog .Left
        ⟨pc0, head0, tape0, inp0, outp0⟩ =
        .ok ⟨pc0 + 1, if head0 = 0 then 29999 else head0 - 1,
          tape0, inp0, outp0⟩ := by
      rfl
    have hrw : nrun (k + 1 + m) prog ⟨pc0, head0, tape0, inp0, outp0⟩ =
        nrun (k + m) prog ⟨pc0 + 1, if head0 = 0 then 29999 else head0 - 1,
          tape0, inp0, outp0⟩ := by
      rw [show k + 1 + m = (k + m) + 1 from by omega]
      exact nrun_step (k + m) prog _ _ .Left hfetch0 hstep
    rw [hrw]
    have hf1 : ∀ j, j < k → prog[(⟨pc0 + 1,
        if head0 = 0 then 29999 else head0 - 1, tape0, inp0, outp0⟩ :
        VMState).pc + j]? = some NInstruction.Left := by
      intro j hj
      show prog[pc0 + 1 + j]? = some NInstruction.Left
      rw [show pc0 + 1 + j = pc0 + (j + 1) from by omega]
      exact hfetch (j + 1) (by omega)
    have hh1 : (⟨pc0 + 1, if head0 = 0 then 29999 else head0 - 1,
        tape0, inp0, outp0⟩ : VMState).head < 30000 := by
      show (if head0 = 0 then 29999 else head0 - 1) < 30000
      split <;> omega
    rw [ih m prog _ hf1 hh1]
    show nrun m prog _ = nrun m prog _
    have hpc : pc0 + 1 + k = pc0 + (k + 1) := by omega
    have hhead : ((if head0 = 0 then 29999 else head0 - 1) + 29999 * k) %
        30000 = (head0 + 29999 * (k + 1)) % 30000 := by
      split
      · omega
      · omega
    rw [show (⟨pc0 + 1 + k,
        ((if head0 = 0 then 29999 else head0 - 1) + 29999 * k) % 30000,
        tape0, inp0, outp0⟩ : VMState) =
      ⟨pc0 + (k + 1), (head0 + 29999 * (k + 1)) % 30000,
        tape0, inp0, outp0⟩ from by rw [hpc, hhead]]

/-- On bracket-free input the baseline parser succeeds and keeps one
instruction per instruction character. -/
theorem nparseGo_bracket_free : ∀ (l : List Char) (d : Nat),
    (∀ c ∈ l, ∀ i, classifyN c = some i → i ≠ .Open ∧ i ≠ .Close) →
    nparseGo l d = if d = 0 then some (l.filterMap classifyN) else none := by
  intro l
  induction l with
  | nil =>
    intro d _
    simp [nparseGo]
  | cons c cs ih =>
    intro d hcs
    have ihd := ih d (fun c2 hc2 => hcs c2 (List.mem_cons_of_mem _ hc2))
    rcases hc : classifyN c with _ | i
    · simp only [nparseGo, hc]
      rw [ihd, List.filterMap_cons_none hc]
    · have hi := hcs c (List.mem_cons_self _ _) i hc
      simp only [nparseGo, hc, if_neg hi.1, if_neg hi.2]
      rw [ihd, List.filterMap_cons_some hc]
      by_cases hd : d = 0
      · simp [hd]
      · simp [hd]

/-- The characters of `c1Src` classify to non-bracket baseline
instructions. -/
theorem c1Src_bracket_free :
    ∀ c ∈ c1Src, ∀ i, classifyN c = some i → i ≠ .Open ∧ i ≠ .Close := by
  intro c hcmem i hci
  have hc : c = '<' ∨ c = '.' := by
    rcases List.mem_append.mp hcmem with h | h
    · exact Or.inl (List.eq_of_mem_replicate h)
    · right
      simpa using h
  rcases hc with rfl | rfl
  · rw [show classifyN '<' = some NInstruction.Left from rfl] at hci
    cases hci
    exact ⟨by decide, by decide⟩
  · rw [show classifyN '.' = some NInstruction.Output from rfl] at hci
    cases hci
    exact ⟨by decide, by decide⟩

/-- `classifyN` over a run of left-arrows. -/
theorem filterMap_classifyN_replicate : ∀ k : Nat,
    (List.replicate k '<').filterMap classifyN =
      List.replicate k NInstruction.Left := by
  intro k
  induction k with
  | zero => rfl
  | succ n ih =>
    rw [List.replicate_succ, List.replicate_succ,
      List.filterMap_cons_some (show classifyN '<' = some .Left from rfl),
      ih]

/-- The baseline parse of `c1Src`: one element per character. -/
theorem nparse_c1Src : nparse c1Src = some c1Baseline := by
  show nparseGo c1Src 0 = some c1Baseline
  rw [nparseGo_bracket_free c1Src 0 c1Src_bracket_free]
  rw [if_pos rfl]
  show some ((List.replicate 30001 '<' ++ ['.']).filterMap classifyN) = _
  rw [List.filterMap_append, filterMap_classifyN_replicate]
  rfl

/-- Claim C1 evaluated at the failing input: the source of 30001 `<`
followed by `.` parses successfully (premise of the claim), the unfused
baseline interpreter halts with output `[0x00]`, but the fused pipeline
produces `Left 30001` — `Parser::parse` applies no mod-30000 reduction —
and `VM::run` faults on the underflowing `usize` subtraction
`30000 - (30001 - 0)` before writing any output, so the two outputs
differ. -/
theorem c1_code_eval :
    parseChars c1Src = .ok ([.Left 30001, .Output 1], [])
  ∧ nparse c1Src = some c1Baseline
  ∧ (∃ s', nrun 30003 c1Baseline (initState []) = .done s'
      ∧ s'.output = [0])
  ∧ runVM 2 [.Left 30001, .Output 1] (initState []) =
      .fault .headUnderflow := by
  obtain ⟨e2, hparse, -⟩ := parse_c1Src
  refine ⟨hparse, nparse_c1Src, ?_, rfl⟩
  have hlenr : (List.replicate 30001 NInstruction.Left).length = 30001 := by
    rw [List.length_replicate]
  have hfetch : ∀ j, j < 30001 →
      c1Baseline[(initState ([] : List Nat)).pc + j]? =
        some NInstruction.Left := by
    intro j hj
    have hlt : j < (List.replicate 30001 NInstruction.Left).length := by
      rw [List.length_replicate]; exact hj
    show (List.replicate 30001 NInstruction.Left ++
      [NInstruction.Output])[0 + j]? = some NInstruction.Left
    rw [Nat.zero_add, getElem?_snoc_lt NInstruction.Output hlt]
    exact List.getElem?_replicate_of_lt hj
  have hrun1 : nrun 30003 c1Baseline (initState []) =
      nrun 2 c1Baseline ⟨0 + 30001, (0 + 29999 * 30001) % 30000,
        fun _ => 0, [], []⟩ :=
    nrun_lefts 30001 2 c1Baseline (initState []) hfetch (by decide)
  have hfetchO : c1Baseline[(0 + 30001 : Nat)]? =
      some NInstruction.Output := by
    rw [Nat.zero_add]
    show (List.replicate 30001 NInstruction.Left ++
      [NInstruction.Output])[(30001 : Nat)]? = _
    rw [List.getElem?_append_right (le_of_eq hlenr), hlenr]
    norm_num
  have hstepO : nstep c1Baseline .Output
      (⟨0 + 30001, (0 + 29999 * 30001) % 30000, fun _ => 0, [], []⟩ :
        VMState) =
      .ok ⟨0 + 30001 + 1, (0 + 29999 * 30001) % 30000, fun _ => 0, [],
        [] ++ [0]⟩ := rfl
  have hnone : c1Baseline[(0 + 30001 + 1 : Nat)]? = none := by
    apply List.getElem?_eq_none
    show (List.replicate 30001 NInstruction.Left ++
      [NInstruction.Output]).length ≤ 0 + 30001 + 1
    rw [List.length_append, List.length_replicate]
    norm_num
  have hrun2 : nrun 2 c1Baseline ⟨0 + 30001, (0 + 29999 * 30001) % 30000,
        fun _ => 0, [], []⟩ =
      nrun 1 c1Baseline ⟨0 + 30001 + 1, (0 + 29999 * 30001) % 30000,
        fun _ => 0, [], [] ++ [0]⟩ :=
    nrun_step 1 c1Baseline _ _ .Output hfetchO hstepO
  have hrun3 : nrun 1 c1Baseline ⟨0 + 30001 + 1,
        (0 + 29999 * 30001) % 30000, fun _ => 0, [], [] ++ [0]⟩ =
      .done ⟨0 + 30001 + 1, (0 + 29999 * 30001) % 30000,
        fun _ => 0, [], [] ++ [0]⟩ :=
    nrun_done 0 c1Baseline _ hnone
  refine ⟨⟨0 + 30001 + 1, (0 + 29999 * 30001) % 30000, fun _ => 0, [],
    [] ++ [0]⟩, ?_, rfl⟩
  rw [hrun1, hrun2, hrun3]

end Brainfuck
